import Mathlib

/-!
Verification of the job-distribution core of the `stable-diffusion-webui-distributed`
repository (`scripts/spartan/World.py`).

The Python classes `Job` and `World` are shallowly embedded below.  Python floats are
modelled as rationals (all the arithmetic the algorithm performs on them is exact
field arithmetic), Python ints as `Int`, Python `//` as `Int.fdiv` (floor division)
and Python's `int()` truncation as truncation toward zero on `Rat`.

The `Worker` class lives in `scripts/spartan/Worker.py`, which is not part of the
sources given; the fields and the prediction primitive `batch_eta` used by
`World.py` are modelled from the spec (see the doc comments marked
"Modelled from the spec").
-/

/-- Liveness state of a worker (`scripts/spartan/Worker.py` `State`; the values are
named in `World.py`: `State.UNAVAILABLE`, `State.WORKING`). -/
inductive WState where
  | unavailable
  | idle
  | working
deriving DecidableEq, Repr

/-- Modelled from the spec: the `Worker` class of `scripts/spartan/Worker.py` is not
among the given sources.  Per spec section 3 a Node carries a unique name, network
address, port, optional credential, a TLS flag, a `master` flag, a liveness state,
and the benchmark figures: `avg_ipm` (`None` until benchmarked) and a `benchmarked`
flag.  These are exactly the fields `World.py` reads and writes. -/
structure Worker where
  uuid : String
  address : String := ""
  port : Option Int := none
  auth : Option String := none
  use_https : Bool := false
  master : Bool := false
  state : WState := WState.idle
  avg_ipm : Option Rat := none
  benchmarked : Bool := false
deriving DecidableEq, Repr

/-- Modelled from the spec: `Worker.batch_eta` of `scripts/spartan/Worker.py` is not
among the given sources.  Per spec section 4.1 it is a pure, deterministic
prediction of the wall-clock seconds needed to produce `batchSize` images at the
worker's current ipm (images / minute), i.e. `batchSize / ipm * 60` seconds; the
worked scenario of spec section 8 fixes this exact formula.  A worker whose
`avg_ipm` is still `None` cannot predict (the Python call would fail), hence the
`Option`. -/
def Worker.batch_eta (w : Worker) (batchSize : Int) : Option Rat :=
  w.avg_ipm.map fun r => (batchSize : Rat) / r * 60

/-- `Job` from `World.py` (lines 38-58): a worker, an image count and a
`complementary` flag (initially `False`). -/
structure Job where
  worker : Worker
  batch_size : Int
  complementary : Bool := false
deriving DecidableEq, Repr

/-- Placeholder used as the default of `List.getD`; every list access in the model
mirrors an in-range Python access, so the placeholder is never actually read. -/
def dummyJob : Job :=
  { worker := { uuid := "" }, batch_size := 1, complementary := false }

/-- The worker's ipm as used for Python comparisons inside the realtime tier (where
`avg_ipm` is never `None`; the default is never read there). -/
def jobIpm (j : Job) : Rat :=
  j.worker.avg_ipm.getD 0

/-- The realtime filter of `World.realtime_jobs` (lines 336-352): skip jobs whose
worker is not benchmarked or has unknown ipm, keep those not complementary. -/
def isRT (j : Job) : Bool :=
  j.worker.benchmarked && j.worker.avg_ipm.isSome && !j.complementary

/-- `World.realtime_jobs` (lines 336-352). -/
def realtime_jobs (jobs : List Job) : List Job :=
  jobs.filter isRT

/-- One fold step keeping the current maximum, replacing only on a strict
increase (so the earliest maximum wins, like the head of Python's stable
descending sort). -/
def pickFBest (best x : Job) : Job :=
  if jobIpm best < jobIpm x then x else best

/-- One fold step keeping the current minimum, replacing only on a strict
decrease (so the earliest minimum wins, like the head of Python's stable
ascending sort). -/
def pickSBest (best x : Job) : Job :=
  if jobIpm x < jobIpm best then x else best

/-- First job attaining the maximal ipm of the list.  `World.fastest_realtime_job`
(lines 364-372) computes `sorted(jobs, key=ipm, reverse=True)[0]`; Python's sort is
stable, so with `reverse=True` the head of the sorted list is exactly the earliest
job attaining the maximum, which this fold computes.  `none` models the
`IndexError` on an empty list. -/
def pickFastest : List Job → Option Job
  | [] => none
  | j :: rest => some (rest.foldl pickFBest j)

/-- First job attaining the minimal ipm of the list.  `World.slowest_realtime_job`
(lines 354-362) computes `sorted(jobs, key=ipm)[0]`; by stability this is the
earliest job attaining the minimum. -/
def pickSlowest : List Job → Option Job
  | [] => none
  | j :: rest => some (rest.foldl pickSBest j)

/-- `World.fastest_realtime_job` (lines 364-372). -/
def fastest_realtime_job (jobs : List Job) : Option Job :=
  pickFastest (realtime_jobs jobs)

/-- `World.slowest_realtime_job` (lines 354-362). -/
def slowest_realtime_job (jobs : List Job) : Option Job :=
  pickSlowest (realtime_jobs jobs)

/-- `World.job_stall` (lines 374-387).  `worker == fastest_worker` is Python object
identity; within a fleet every worker object is registered once and identified by
its unique `uuid` (spec section 3), so identity is embedded as uuid equality.
`none` models the exceptions the Python code can raise (empty realtime tier,
`batch_eta` on an unbenchmarked worker). -/
def job_stall (jobs : List Job) (w : Worker) (payloadBatch : Int) : Option Rat :=
  match fastest_realtime_job jobs with
  | none => none
  | some fj =>
    if w.uuid = fj.worker.uuid then some 0
    else
      match w.batch_eta payloadBatch, fj.worker.batch_eta payloadBatch with
      | some a, some b => some (a - b)
      | _, _ => none

/-- `World.get_current_output_size` (lines 296-306): total image count over the
current jobs. -/
def get_current_output_size (jobs : List Job) : Int :=
  (jobs.map Job.batch_size).sum

/-- Phase 1 of `World.optimize_jobs` (lines 450-470): the classification loop
`for job in self.jobs`.  The loop mutates `self.jobs` in place while iterating, and
`job_stall` reads the whole current list, so the state is carried as
`done ++ job :: rest` (already-processed prefix, current job, untouched suffix).
Fast branch (`lag < self.job_timeout or lag == 0`): the job's `batch_size` is set
to `payload['batch_size']` and `images_checked` grows by the same amount.
Slow branch: the job is marked complementary, `payload['batch_size']` is added to
`deferred_images` unless that would exceed `total_batch_size`, and the job's
`batch_size` is zeroed. -/
def phase1Go (total : Int) (timeout : Rat) (pB : Int) :
    List Job → List Job → Int → Int → Option (List Job × Int)
  | done, [], deferred, _ => some (done, deferred)
  | done, job :: rest, deferred, checked =>
    match job_stall (done ++ job :: rest) job.worker pB with
    | none => none
    | some lag =>
      if lag < timeout ∨ lag = 0 then
        phase1Go total timeout pB (done ++ [{ job with batch_size := pB }]) rest
          deferred (checked + pB)
      else
        phase1Go total timeout pB
          (done ++ [{ job with complementary := true, batch_size := 0 }]) rest
          (if total < deferred + checked + pB then deferred else deferred + pB) checked

/-- Phase 2 of `World.optimize_jobs` (lines 476-480): redistribute
`deferred_images` evenly (floor) over the realtime jobs.  `none` models the
`ZeroDivisionError` when the realtime tier is empty; the second component is the
Python local `images_per_job` (`None` unless this branch ran).  Python mutates the
job objects shared between `self.jobs` and the `realtime_jobs()` list, which the
map over the full list reproduces. -/
def phase2 (deferred : Int) (jobs : List Job) : Option (List Job × Option Int) :=
  if 0 < deferred then
    let rt := realtime_jobs jobs
    if rt.length = 0 then none
    else
      let per := Int.fdiv deferred (rt.length : Int)
      some (jobs.map fun j => if isRT j then { j with batch_size := j.batch_size + per } else j,
        some per)
  else some (jobs, none)

/-- Indices (into the full job list, starting at `start`) of the realtime jobs, in
list order.  Used to express the aliasing of `World.optimize_jobs` lines 491-499:
the sorted `realtime_jobs()` list holds references into `self.jobs`, so the
round-robin loop mutates `self.jobs` through these indices. -/
def rtIndicesFrom (start : Nat) : List Job → List Nat
  | [] => []
  | j :: rest =>
    if isRT j then start :: rtIndicesFrom (start + 1) rest
    else rtIndicesFrom (start + 1) rest

/-- Indices of the realtime jobs of the list. -/
def rtIndices (jobs : List Job) : List Nat :=
  rtIndicesFrom 0 jobs

/-- Stable insertion of an index into an ascending run, ordered by the batch size
of the indexed job: the new index (which comes earlier in the original order) goes
before any index of equal key. -/
def insertByBatch (jobs : List Job) (i : Nat) : List Nat → List Nat
  | [] => [i]
  | k :: rest =>
    if (jobs.getD i dummyJob).batch_size ≤ (jobs.getD k dummyJob).batch_size then
      i :: k :: rest
    else k :: insertByBatch jobs i rest

/-- Stable ascending sort by current batch size, mirroring
`realtime_jobs.sort(key=lambda x: x.batch_size)` of `World.optimize_jobs` line 492
(Python's sort is stable: ties keep list order, i.e. node registration order). -/
def sortIdx (jobs : List Job) : List Nat → List Nat
  | [] => []
  | i :: rest => insertByBatch jobs i (sortIdx jobs rest)

/-- `job.batch_size += 1` at index `i` of the job list. -/
def bumpAt (jobs : List Job) (i : Nat) : List Job :=
  jobs.set i (let j := jobs.getD i dummyJob; { j with batch_size := j.batch_size + 1 })

/-- One pass of the round-robin loop of `World.optimize_jobs` (lines 495-499):
`for job in realtime_jobs: if remainder < 1: break; job.batch_size += 1;
remainder -= 1`. -/
def rrPass : List Nat → List Job → Int → List Job × Int
  | [], jobs, rem => (jobs, rem)
  | i :: order, jobs, rem =>
    if rem < 1 then (jobs, rem)
    else rrPass order (bumpAt jobs i) (rem - 1)

/-- The `while remainder_images >= 1` loop of `World.optimize_jobs` (lines
494-499).  The Python loop has no termination measure of its own — with an empty
realtime list it spins forever — so the embedding counts passes with `fuel`;
`none` means the loop is still running after `fuel` passes (for every `fuel`, in
the empty case). -/
def rrLoop : Nat → List Nat → List Job → Int → Option (List Job)
  | fuel, order, jobs, rem =>
    if rem < 1 then some jobs
    else
      match fuel with
      | 0 => none
      | fuel' + 1 =>
        let p := rrPass order jobs rem
        rrLoop fuel' order p.1 p.2

/-- Phase 3 of `World.optimize_jobs` (lines 486-499): remainder handling.
`remainder_images = self.total_batch_size - self.get_current_output_size()`; if at
least 1, the realtime jobs are sorted ascending by batch size (stably) and the
remainder is distributed round-robin one image at a time. -/
def phase3 (total : Int) (fuel : Nat) (jobs : List Job) : Option (List Job) :=
  let remainder := total - get_current_output_size jobs
  if 1 ≤ remainder then
    rrLoop fuel (sortIdx jobs (rtIndices jobs)) jobs remainder
  else some jobs

/-- Python's `int()` applied to a nonnegative float: truncation toward zero
(`Int` division of the numerator by the denominator truncates toward zero). -/
def truncInt (q : Rat) : Int :=
  q.num / (q.den : Int)

/-- Phase 4 of `World.optimize_jobs` (lines 508-527): complementary backfill.
The loop walks `self.jobs` (state carried as in `phase1Go`): jobs that are not
complementary are skipped; for a complementary job the slack is the slowest
realtime worker's eta on the request payload, inflated by
`(slack / payload['batch_size']) * images_per_job` when phase 2 distributed
deferred images (`images_per_job` is only ever set with a positive
`payload['batch_size']`, so the rational division cannot hit a zero denominator in
a reachable state); the job then receives `int(slack / eta(1 image))` images. -/
def phase4Go (pB : Int) (per : Option Int) : List Job → List Job → Option (List Job)
  | done, [] => some done
  | done, job :: rest =>
    if job.complementary = false then phase4Go pB per (done ++ [job]) rest
    else
      match slowest_realtime_job (done ++ job :: rest) with
      | none => none
      | some sj =>
        match sj.worker.batch_eta pB with
        | none => none
        | some slack0 =>
          let slack :=
            match per with
            | none => slack0
            | some p => slack0 + slack0 / (pB : Rat) * (p : Rat)
          match job.worker.batch_eta 1 with
          | none => none
          | some secs =>
            phase4Go pB per
              (done ++ [{ job with batch_size := truncInt (slack / secs) }]) rest

/-- The pruning loop at the end of `World.optimize_jobs` (lines 536-541):
`last = len(self.jobs) - 1; while last > 0: if self.jobs[last].batch_size < 1:
del self.jobs[last]; last -= 1`.  Index 0 is never examined. -/
def pruneLoop : List Job → Nat → List Job
  | jobs, 0 => jobs
  | jobs, last + 1 =>
    pruneLoop
      (if (jobs.getD (last + 1) dummyJob).batch_size < 1 then jobs.eraseIdx (last + 1)
       else jobs)
      last

/-- The pruning step of `World.optimize_jobs` (lines 536-541). -/
def pruneJobs (jobs : List Job) : List Job :=
  pruneLoop jobs (jobs.length - 1)

/-- `World.optimize_jobs` (lines 443-541) in full: classification, deferred
redistribution, remainder handling, complementary backfill, pruning.  `total` is
`self.total_batch_size`, `timeout` is `self.job_timeout` (6 in the constructor),
`pB` is `payload['batch_size']`, `fuel` bounds the passes of the remainder loop
(see `rrLoop`). -/
def optimize_jobs (total : Int) (timeout : Rat) (pB : Int) (fuel : Nat)
    (jobs : List Job) : Option (List Job) :=
  match phase1Go total timeout pB [] jobs 0 0 with
  | none => none
  | some (js1, deferred) =>
    match phase2 deferred js1 with
    | none => none
    | some (js2, per) =>
      match phase3 total fuel js2 with
      | none => none
      | some js3 =>
        match phase4Go pB per [] js3 with
        | none => none
        | some js4 => some (pruneJobs js4)

/-- `World.get_workers` (lines 429-441).  Walks `self.__workers`; a worker whose
stored `avg_ipm` is set but `<= 0` is reset to 1 ipm (with a warning) and skipped
by `continue`; the master is skipped in thin-client mode; workers whose state is
`UNAVAILABLE` are filtered out.  Returns the mutated `self.__workers` together
with the filtered list the Python function returns. -/
def get_workers (thin : Bool) : List Worker → List Worker × List Worker
  | [] => ([], [])
  | w :: rest =>
    let corrupt := match w.avg_ipm with
      | some r => decide (r ≤ 0)
      | none => false
    if corrupt then
      let p := get_workers thin rest
      ({ w with avg_ipm := some 1 } :: p.1, p.2)
    else if w.master && thin then
      let p := get_workers thin rest
      (w :: p.1, p.2)
    else if w.state ≠ WState.unavailable then
      let p := get_workers thin rest
      (w :: p.1, w :: p.2)
    else
      let p := get_workers thin rest
      (w :: p.1, p.2)

/-- `World.default_batch_size` (lines 106-110): `total_batch_size // size()` where
`size()` is the length of `get_workers()` (floor division; an empty world would
raise `ZeroDivisionError` in Python, never hit in the modelled scenarios). -/
def default_batch_size (total : Int) (thin : Bool) (workers : List Worker) : Int :=
  Int.fdiv total ((get_workers thin workers).2.length : Int)

/-- `World.update_jobs` (lines 419-427): fresh jobs, one per scheduled worker, each
with the default batch size and `complementary = False`. -/
def update_jobs (total : Int) (thin : Bool) (workers : List Worker) : List Job :=
  (get_workers thin workers).2.map fun w =>
    { worker := w, batch_size := default_batch_size total thin workers,
      complementary := false }

/-- Membership by node identity: within a fleet each worker is registered once
under a unique uuid (spec section 3), so Python object membership in a list of
worker objects is embedded as uuid membership. -/
def uuidMem (w : Worker) (ws : List Worker) : Bool :=
  ws.any fun x => x.uuid = w.uuid

/-- `World.benchmark` (lines 224-293).  Pure model of one benchmarking pass:
`fileExists` is `os.path.exists(self.worker_info_path)`, `cache` the parse result
of `workers.json` (`none` for a `json.JSONDecodeError`), and `measure` the
per-worker measurement `benchmark_wrapped` runs (the concurrent threads are joined
before anything else observes the results, so the pass is their sequential merge;
`Worker.benchmark` / `World.benchmark_master` itself is modelled from the spec as
an opaque-to-the-algorithm positive measurement).  Control flow mirrored:

* `rebenchmark` forces `saved = False`, clears the `benchmarked` flag of every
  scheduled worker, and re-benchmarks all of them;
* an unparsable cache (`cache = none`) sets `rebenchmark = True`;
* with a valid cache and no re-benchmark, every scheduled worker found in the
  cache gets the cached `avg_ipm` and `benchmarked = True`, workers missing from
  the cache are appended to `unbenched_workers` — and then the function RETURNS
  (line 268) without ever running the loop that benchmarks `unbenched_workers`;
* otherwise every scheduled worker is measured and marked benchmarked.

Each `self.get_workers()` call also performs that function's corrupt-ipm reset,
so the master list is threaded through the calls. -/
def benchmark_run (measure : Worker → Rat) (thin : Bool) (rebench : Bool)
    (fileExists : Bool) (cache : Option (List (String × Rat)))
    (workers : List Worker) : List Worker :=
  let w1 :=
    if rebench then
      let p := get_workers thin workers
      p.1.map fun w => if uuidMem w p.2 then { w with benchmarked := false } else w
    else workers
  let saved := fileExists && !rebench
  let parseFailed := saved && cache.isNone
  let w2 := if parseFailed then (get_workers thin w1).1 else w1
  if saved && !parseFailed then
    match cache with
    | none => w2
    | some info =>
      let p := get_workers thin w2
      p.1.map fun w =>
        if uuidMem w p.2 then
          match info.lookup w.uuid with
          | some ipm => { w with avg_ipm := some ipm, benchmarked := true }
          | none => w
        else w
  else
    let p := get_workers thin w2
    p.1.map fun w =>
      if uuidMem w p.2 then { w with avg_ipm := some (measure w), benchmarked := true }
      else w

/-- One entry of the node registry document loaded by `World.load_config`
(lines 154-181): `uuid` and `address` are required by the format of spec
section 6, `port`, `auth` and `use_https` are read with `dict.get` defaults. -/
structure ConfigEntry where
  uuid : String
  address : String
  port : Option Int := none
  auth : Option String := none
  use_https : Option Bool := none
deriving DecidableEq, Repr

/-- The `https` rewrite of `World.load_config` lines 174-176:
`worker['address'] = f"https://{worker['address']}"` when `use_https`. -/
def rewriteEntry (e : ConfigEntry) : ConfigEntry :=
  if e.use_https.getD false then { e with address := "https://" ++ e.address } else e

/-- The worker `World.add_worker` (lines 141-152) constructs and appends for a
registry entry. -/
def mkRemoteWorker (e : ConfigEntry) : Worker :=
  { uuid := e.uuid, address := e.address, port := e.port, auth := e.auth }

/-- The entry loop of `World.load_config` (lines 173-181).  `valid` is modelled
from the spec: the `Worker` constructor (in `scripts/spartan/Worker.py`, not among
the given sources) raises `InvalidWorkerResponse` when the remote node fails its
identity check (spec sections 4.1 and 7); `load_config` catches exactly that
exception, logs, and `continue`s with the next entry. -/
def loadEntries (valid : ConfigEntry → Bool) : List ConfigEntry → List Worker → List Worker
  | [], workers => workers
  | e :: rest, workers =>
    let e' := rewriteEntry e
    if valid e' then loadEntries valid rest (workers ++ [mkRemoteWorker e'])
    else loadEntries valid rest workers

/-- `World.load_config` (lines 154-181).  `doc = none` models a missing or
unparsable file (both merely log and leave the registry unchanged). -/
def load_config (valid : ConfigEntry → Bool) (doc : Option (List ConfigEntry))
    (workers : List Worker) : List Worker :=
  match doc with
  | none => workers
  | some entries => loadEntries valid entries workers

/-! ### Concrete fleets used by the worked scenario and the counterexamples -/

/-- Master node of the worked scenario of spec section 8: 60 ipm. -/
def exMaster : Worker :=
  { uuid := "master", master := true, avg_ipm := some 60, benchmarked := true }

/-- Node A of the worked scenario: 60 ipm. -/
def exA : Worker :=
  { uuid := "A", avg_ipm := some 60, benchmarked := true }

/-- Node B of the worked scenario: 6 ipm. -/
def exB : Worker :=
  { uuid := "B", avg_ipm := some 6, benchmarked := true }

/-- Initial jobs of the worked scenario: `T = 9`, three scheduled workers,
baseline `B = 9 // 3 = 3` (`World.update_jobs`). -/
def exJobs : List Job :=
  [{ worker := exMaster, batch_size := 3 }, { worker := exA, batch_size := 3 },
    { worker := exB, batch_size := 3 }]

/-- Fast master (60 ipm) for the conservation counterexample. -/
def cxMaster : Worker :=
  { uuid := "m", master := true, avg_ipm := some 60, benchmarked := true }

/-- Slow worker (15 ipm) for the conservation counterexample. -/
def cxSlow : Worker :=
  { uuid := "w", avg_ipm := some 15, benchmarked := true }

/-- Initial jobs of the conservation counterexample: `T = 4`, two scheduled
workers, baseline `B = 4 // 2 = 2`. -/
def cxJobs : List Job :=
  [{ worker := cxMaster, batch_size := 2 }, { worker := cxSlow, batch_size := 2 }]

/-- A worker whose persisted configuration reports the corrupt speed 0 ipm, and
which is otherwise eligible for scheduling (idle, not the master). -/
def c6Corrupt : Worker :=
  { uuid := "c", avg_ipm := some 0, benchmarked := true }

/-! ### Predicates and helper functions used by the specifications -/

/-- A worker the distribution algorithm can fully reason about: benchmarked with
a known positive ipm (the setting of the conservation and immunity claims). -/
def workerReady (w : Worker) : Bool :=
  w.benchmarked && w.avg_ipm.isSome && decide (0 < w.avg_ipm.getD 0)

/-- How the classification phase rewrites one job: either it keeps the baseline
(`batch_size := payload batch`) or it is marked complementary with no images. -/
def phase1Shape (pB : Int) (orig out : Job) : Prop :=
  out = { orig with batch_size := pB } ∨
  out = { orig with complementary := true, batch_size := 0 }

/-- Sequential `+1` bumps at a list of indices; `rrPass` performs exactly these
bumps on the indices it visits. -/
def bumpAll : List Nat → List Job → List Job
  | [], js => js
  | i :: o, js => bumpAll o (bumpAt js i)

/-- The observable part of a job for the determinism claim: everything the
distribution algorithm reads — the worker's identity (standing in for Python
object identity), its throughput figures, and the job's count and flag.  Network
address, port, credential, TLS flag, liveness state and master flag are reset to
defaults: `optimize_jobs` never reads them. -/
def Job.strip (j : Job) : Job :=
  { worker :=
      { uuid := j.worker.uuid, avg_ipm := j.worker.avg_ipm,
        benchmarked := j.worker.benchmarked },
    batch_size := j.batch_size, complementary := j.complementary }

/-- Master node of the worked scenario behind a different network address and
port: strips to the same observables as `exMaster`. -/
def exMasterAlt : Worker :=
  { exMaster with address := "192.168.0.10", port := some 7860 }

/-- Node A of the worked scenario behind a different address, with a credential
and TLS enabled: strips to the same observables as `exA`. -/
def exAAlt : Worker :=
  { exA with address := "192.168.0.11", auth := some "user:pw", use_https := true }

/-- Node B of the worked scenario behind a different address and currently
working: strips to the same observables as `exB`. -/
def exBAlt : Worker :=
  { exB with address := "192.168.0.12", state := WState.working }

/-- The worked-scenario fleet again, with different network addresses, ports,
credentials, TLS flags and liveness bookkeeping than `exJobs`: an observationally
identical input for the determinism claim, since the distribution algorithm reads
none of those fields. -/
def exJobsAlt : List Job :=
  [{ worker := exMasterAlt, batch_size := 3 }, { worker := exAAlt, batch_size := 3 },
    { worker := exBAlt, batch_size := 3 }]

/-! ### Helper lemmas -/

theorem rrLoop_nil_order (fuel : Nat) (jobs : List Job) (rem : Int) (h : 1 ≤ rem) :
    rrLoop fuel [] jobs rem = none := by
  induction fuel generalizing jobs rem with
  | zero => simp [rrLoop, Int.not_lt.mpr h]
  | succ n ih =>
    rw [rrLoop]
    simp only [Int.not_lt.mpr h, if_false]
    exact ih jobs rem h

theorem rtIndicesFrom_eq_nil (jobs : List Job) (h : ∀ j ∈ jobs, isRT j = false) :
    ∀ start : Nat, rtIndicesFrom start jobs = [] := by
  induction jobs with
  | nil => intro start; rfl
  | cons j rest ih =>
    intro start
    rw [rtIndicesFrom]
    simp only [h j (List.mem_cons_self j rest), if_false, Bool.false_eq_true]
    exact ih (fun x hx => h x (List.mem_cons_of_mem j hx)) (start + 1)

theorem pruneLoop_append (tail : List Job) :
    ∀ (l : Nat) (js : List Job), l < js.length →
      pruneLoop (js ++ tail) l = pruneLoop js l ++ tail := by
  intro l
  induction l with
  | zero => intro js _; rfl
  | succ n ih =>
    intro js h
    have hget : (js ++ tail).getD (n + 1) dummyJob = js.getD (n + 1) dummyJob :=
      List.getD_append _ _ _ _ h
    rw [pruneLoop, pruneLoop, hget]
    by_cases hc : (js.getD (n + 1) dummyJob).batch_size < 1
    · simp only [hc, if_true]
      rw [List.eraseIdx_append_of_lt_length h]
      refine ih _ ?_
      rw [List.length_eraseIdx, if_pos h]
      omega
    · simp only [hc, if_false]
      exact ih js (Nat.lt_of_succ_lt h)

theorem pruneLoop_cons (j : Job) (rest : List Job) :
    pruneLoop (j :: rest) rest.length =
      j :: rest.filter (fun x => decide (1 ≤ x.batch_size)) := by
  induction rest using List.reverseRecOn with
  | nil => rfl
  | append_singleton rs b ih =>
    have hlen : (rs ++ [b]).length = rs.length + 1 := by simp
    have hget : (j :: (rs ++ [b])).getD (rs.length + 1) dummyJob = b := by
      rw [List.getD_cons_succ, List.getD_append_right rs [b] dummyJob rs.length le_rfl]
      simp
    rw [hlen, pruneLoop, hget]
    by_cases hc : b.batch_size < 1
    · simp only [hc, if_true]
      have herase : (j :: (rs ++ [b])).eraseIdx (rs.length + 1) = j :: rs := by
        have : ((j :: rs) ++ [b]).eraseIdx (rs.length + 1) =
            (j :: rs) ++ ([b].eraseIdx 0) := by
          have hle : (j :: rs).length ≤ rs.length + 1 := by simp
          rw [List.eraseIdx_append_of_length_le hle]
          simp
        simpa using this
      rw [herase, ih]
      have hb : decide (1 ≤ b.batch_size) = false := by
        simp [decide_eq_false_iff_not, Int.not_le]
        omega
      rw [List.filter_append]
      simp [List.filter_cons, hb]
    · simp only [hc, if_false]
      have hlt : rs.length < (j :: rs).length := by simp
      have := pruneLoop_append [b] rs.length (j :: rs) hlt
      rw [show j :: (rs ++ [b]) = (j :: rs) ++ [b] by simp, this, ih]
      have hb : decide (1 ≤ b.batch_size) = true := by
        simp [decide_eq_true_eq]
        omega
      rw [List.filter_append]
      simp [List.filter_cons, hb]

theorem get_workers_append (thin : Bool) (a b : List Worker) :
    get_workers thin (a ++ b) =
      ((get_workers thin a).1 ++ (get_workers thin b).1,
        (get_workers thin a).2 ++ (get_workers thin b).2) := by
  induction a with
  | nil => simp [get_workers]
  | cons w rest ih =>
    simp only [List.cons_append, get_workers, ih]
    repeat' split
    all_goals simp [ih]

/-! ### Claim theorems -/

/-- C2 (code bug witness on the model): with a valid persisted cache that lists
only the master and no forced re-benchmark, `World.benchmark` assigns the cached
ipm to the master, appends the remote worker missing from the cache to
`unbenched_workers`, and then returns at line 268 — before the loop that would
benchmark `unbenched_workers` ever runs.  The remote worker therefore ends the
call with `benchmarked = false` and no ipm, whatever the measurement primitive
would have returned, contradicting the claimed postcondition that every scheduled
worker ends the call benchmarked. -/
theorem C2_cache_miss_worker_left_unbenchmarked (measure : Worker → Rat) :
    benchmark_run measure false false true (some [("master", 60)])
        [{ uuid := "master", master := true }, { uuid := "remote" }] =
      [{ uuid := "master", master := true, avg_ipm := some 60, benchmarked := true },
        { uuid := "remote" }] ∧
    ({ uuid := "remote" } : Worker).benchmarked = false ∧
    ({ uuid := "remote" } : Worker).avg_ipm = none :=
  ⟨rfl, rfl, rfl⟩

unseal Rat.mul Rat.inv Rat.add Rat.sub in
/-- C3: the worked scenario of spec section 8.  Three nodes — master (60 ipm),
A (60 ipm), B (6 ipm) — with `T = 9`, baseline batch 3 and stall tolerance 6 s:
the classification phase marks B complementary (its 3 baseline images deferred),
and the full algorithm ends with master = 5, A = 4 and B's job pruned, summing
to 9. -/
theorem C3_worked_scenario :
    phase1Go 9 6 3 [] exJobs 0 0 =
      some ([{ worker := exMaster, batch_size := 3 },
        { worker := exA, batch_size := 3 },
        { worker := exB, batch_size := 0, complementary := true }], 3) ∧
    optimize_jobs 9 6 3 9 exJobs =
      some [{ worker := exMaster, batch_size := 5 }, { worker := exA, batch_size := 4 }] ∧
    (get_current_output_size [{ worker := exMaster, batch_size := 5 },
      { worker := exA, batch_size := 4 }]) = 9 :=
  ⟨by decide, by decide, by decide⟩

/-- C8: the entry loop of `World.load_config` registers exactly the entries whose
(https-rewritten) registration succeeds, in order; every entry that fails to
register is skipped and loading continues with the remaining entries — a
malformed entry anywhere in the document never aborts the rest of the load. -/
theorem C8_load_config_skips_invalid_entries (valid : ConfigEntry → Bool)
    (entries : List ConfigEntry) (workers : List Worker) :
    load_config valid (some entries) workers =
      workers ++ ((entries.map rewriteEntry).filter valid).map mkRemoteWorker := by
  show loadEntries valid entries workers = _
  induction entries generalizing workers with
  | nil => simp [loadEntries]
  | cons e rest ih =>
    rw [loadEntries]
    by_cases h : valid (rewriteEntry e) = true
    · rw [if_pos h, ih]
      simp [List.filter_cons, h]
    · rw [if_neg h, ih]
      simp [List.filter_cons, h]

/-- C10: if the remainder-handling step of `World.optimize_jobs` is reached with
an empty realtime job set, no deferred images (so phase 2 passed through without
raising), and a remainder of at least 1, the round-robin `while` loop iterates
over an empty list forever without decreasing the remainder: for every number of
passes the loop is still running (`rrLoop` returns `none` for every fuel), so
`optimize_jobs` does not terminate. -/
theorem C10_empty_realtime_remainder_loop_diverges (total : Int) (jobs : List Job)
    (hrt : realtime_jobs jobs = [])
    (hrem : 1 ≤ total - get_current_output_size jobs) :
    phase2 0 jobs = some (jobs, none) ∧
    ∀ fuel : Nat, phase3 total fuel jobs = none := by
  constructor
  · simp [phase2]
  · intro fuel
    have hall : ∀ j ∈ jobs, isRT j = false := by
      intro j hj
      have := List.filter_eq_nil_iff.mp hrt j hj
      simpa using this
    have hidx : rtIndices jobs = [] := rtIndicesFrom_eq_nil jobs hall 0
    rw [phase3]
    simp only [hrem, if_true]
    rw [hidx]
    exact rrLoop_nil_order fuel jobs _ hrem

/-- Witness for C10: a single job whose worker was never benchmarked, with one
requested image still unassigned; the remainder loop never terminates. -/
theorem C10_witness :
    phase2 0 [{ worker := { uuid := "u" }, batch_size := 0 }] =
      some ([{ worker := { uuid := "u" }, batch_size := 0 }], none) ∧
    phase3 1 1000 [{ worker := { uuid := "u" }, batch_size := 0 }] = none := by
  have h := C10_empty_realtime_remainder_loop_diverges 1
    [{ worker := { uuid := "u" }, batch_size := 0 }] (by decide) (by decide)
  exact ⟨h.1, h.2 1000⟩

theorem get_workers_cons_corrupt (thin : Bool) (w : Worker) (rest : List Worker)
    (r : Rat) (hipm : w.avg_ipm = some r) (hr : r ≤ 0) :
    get_workers thin (w :: rest) =
      ({ w with avg_ipm := some 1 } :: (get_workers thin rest).1,
        (get_workers thin rest).2) := by
  rw [get_workers]
  simp [hipm, hr]

theorem get_workers_cons_eligible (thin : Bool) (w : Worker) (rest : List Worker)
    (hc : ∀ r, w.avg_ipm = some r → ¬(r ≤ 0))
    (hmt : (w.master && thin) = false) (hstate : w.state ≠ WState.unavailable) :
    get_workers thin (w :: rest) =
      (w :: (get_workers thin rest).1, w :: (get_workers thin rest).2) := by
  rw [get_workers]
  have hcor : (match w.avg_ipm with
      | some r => decide (r ≤ 0)
      | none => false) = false := by
    cases h : w.avg_ipm with
    | none => rfl
    | some r => simpa using hc r h
  simp [hcor, hmt, hstate]

/-- C6 (counterexample to the claim as stated): a worker whose stored `avg_ipm`
is 0 and which is otherwise eligible — idle and not excluded by thin-client
mode — is reset to 1 ipm by `get_workers`, but the `continue` on line 435 also
skips the append, so the worker is absent from the scheduled-worker list returned
by that same call (the call returns only the master). -/
theorem C6_counterexample :
    get_workers false [cxMaster, c6Corrupt] =
      ([cxMaster, { c6Corrupt with avg_ipm := some 1 }], [cxMaster]) ∧
    c6Corrupt.state ≠ WState.unavailable ∧ c6Corrupt.master = false := by
  refine ⟨by decide, by decide, rfl⟩

/-- C6 (amended): `get_workers` resets a stored `avg_ipm ≤ 0` to 1 with a warning
and the worker is not permanently dropped, but it is excluded from the
scheduled-worker list returned by that same call; because the reset persists, the
otherwise-eligible worker appears in the list returned by any subsequent call. -/
theorem C6_corrupt_ipm_reset_excluded_once (thin : Bool) (pre post : List Worker)
    (w : Worker) (r : Rat) (hipm : w.avg_ipm = some r) (hr : r ≤ 0)
    (hmt : (w.master && thin) = false) (hstate : w.state ≠ WState.unavailable) :
    get_workers thin (pre ++ w :: post) =
      ((get_workers thin pre).1 ++
          { w with avg_ipm := some 1 } :: (get_workers thin post).1,
        (get_workers thin pre).2 ++ (get_workers thin post).2) ∧
    { w with avg_ipm := some 1 } ∈
      (get_workers thin (get_workers thin (pre ++ w :: post)).1).2 := by
  have hcons := get_workers_cons_corrupt thin w post r hipm hr
  have hsplit := get_workers_append thin pre (w :: post)
  rw [hcons] at hsplit
  refine ⟨hsplit, ?_⟩
  rw [hsplit]
  have hsplit2 := get_workers_append thin (get_workers thin pre).1
    ({ w with avg_ipm := some 1 } :: (get_workers thin post).1)
  rw [hsplit2]
  have helig := get_workers_cons_eligible thin { w with avg_ipm := some 1 }
    (get_workers thin post).1
    (by intro r' hr'; simp at hr'; rw [← hr']; norm_num)
    (by simpa using hmt) (by simpa using hstate)
  rw [helig]
  simp

/-- Witness for C6: the master plus a worker with stored speed 0; the worker is
reset to 1 ipm, omitted from the first call's list, and present in the second
call's list. -/
theorem C6_witness :
    get_workers false ([cxMaster] ++ c6Corrupt :: []) =
      ((get_workers false [cxMaster]).1 ++
          { c6Corrupt with avg_ipm := some 1 } :: (get_workers false []).1,
        (get_workers false [cxMaster]).2 ++ (get_workers false []).2) ∧
    { c6Corrupt with avg_ipm := some 1 } ∈
      (get_workers false (get_workers false ([cxMaster] ++ c6Corrupt :: [])).1).2 :=
  C6_corrupt_ipm_reset_excluded_once false [cxMaster] [] c6Corrupt 0 rfl
    (by norm_num) rfl (by decide)

/-- C7: the pruning loop at the end of `World.optimize_jobs` walks indices
`len-1 .. 1` and deletes exactly the jobs whose final image count is below 1;
index 0 — the master's job, since `update_jobs` creates the jobs in registration
order with the master first — is never examined, so the master's job survives and
stays at index 0 even with no work assigned. -/
theorem C7_prune_exactly_small_jobs_except_master (mj : Job) (rest : List Job)
    (hmaster : mj.worker.master = true) :
    pruneJobs (mj :: rest) = mj :: rest.filter (fun x => decide (1 ≤ x.batch_size)) ∧
    (pruneJobs (mj :: rest)).getD 0 dummyJob = mj := by
  have h : pruneJobs (mj :: rest) = pruneLoop (mj :: rest) rest.length := by
    rw [pruneJobs]
    simp
  rw [h, pruneLoop_cons]
  exact ⟨rfl, rfl⟩

/-- Witness for C7: a master job with zero images survives at index 0 while a
zero-image remote job is pruned and a two-image remote job is kept. -/
theorem C7_witness :
    pruneJobs [{ worker := exMaster, batch_size := 0 },
        { worker := exA, batch_size := 0 }, { worker := exB, batch_size := 2 }] =
      { worker := exMaster, batch_size := 0 } ::
        [({ worker := exA, batch_size := 0 } : Job),
          { worker := exB, batch_size := 2 }].filter (fun x => decide (1 ≤ x.batch_size)) ∧
    (pruneJobs [{ worker := exMaster, batch_size := 0 },
        { worker := exA, batch_size := 0 },
        { worker := exB, batch_size := 2 }]).getD 0 dummyJob =
      { worker := exMaster, batch_size := 0 } :=
  C7_prune_exactly_small_jobs_except_master { worker := exMaster, batch_size := 0 }
    [{ worker := exA, batch_size := 0 }, { worker := exB, batch_size := 2 }] rfl

unseal Rat.mul Rat.inv Rat.add Rat.sub in
/-- C1 (counterexample to the claim as stated): two workers with positive known
ipm — the master at 60 ipm and a worker at 15 ipm — and `T = 4` (baseline
`4 // 2 = 2`).  The slow worker lags `8 - 2 = 6 ≥ 6` seconds, is classified
complementary, and its 2 deferred images move to the master (master = 4,
remainder 0); the backfill phase then gives the slow worker
`int(4s / 4s-per-image) = 1` image, which survives pruning.  The surviving jobs
sum to 5, not `T = 4`. -/
theorem C1_counterexample :
    optimize_jobs 4 6 2 4 cxJobs =
      some [{ worker := cxMaster, batch_size := 4 },
        { worker := cxSlow, batch_size := 1, complementary := true }] ∧
    get_current_output_size [{ worker := cxMaster, batch_size := 4 },
      { worker := cxSlow, batch_size := 1, complementary := true }] = 5 ∧
    ¬(get_current_output_size [{ worker := cxMaster, batch_size := 4 },
      { worker := cxSlow, batch_size := 1, complementary := true }] = 4) :=
  ⟨by decide, by decide, by decide⟩

theorem foldl_choice_mem (f : Job → Job → Job) (hf : ∀ a x, f a x = a ∨ f a x = x) :
    ∀ (l : List Job) (a : Job), l.foldl f a = a ∨ l.foldl f a ∈ l := by
  intro l
  induction l with
  | nil => intro a; left; rfl
  | cons x xs ih =>
    intro a
    rw [List.foldl_cons]
    rcases ih (f a x) with h | h
    · rw [h]
      rcases hf a x with h' | h'
      · left; exact h'
      · right; rw [h']; exact List.mem_cons_self x xs
    · right; exact List.mem_cons_of_mem x h

theorem pickFBest_choice (a x : Job) : pickFBest a x = a ∨ pickFBest a x = x := by
  rw [pickFBest]
  split
  · right; rfl
  · left; rfl

theorem pickSBest_choice (a x : Job) : pickSBest a x = a ∨ pickSBest a x = x := by
  rw [pickSBest]
  split
  · right; rfl
  · left; rfl

theorem pickFastest_mem {l : List Job} {j : Job} (h : pickFastest l = some j) : j ∈ l := by
  match l with
  | [] => simp [pickFastest] at h
  | a :: rest =>
    rw [pickFastest] at h
    have := foldl_choice_mem pickFBest pickFBest_choice rest a
    rcases this with h' | h'
    · rw [h'] at h
      injection h with h
      rw [← h]; exact List.mem_cons_self a rest
    · have hj : rest.foldl pickFBest a = j := by injection h
      rw [hj] at h'
      exact List.mem_cons_of_mem a h'

theorem pickSlowest_mem {l : List Job} {j : Job} (h : pickSlowest l = some j) : j ∈ l := by
  match l with
  | [] => simp [pickSlowest] at h
  | a :: rest =>
    rw [pickSlowest] at h
    have := foldl_choice_mem pickSBest pickSBest_choice rest a
    rcases this with h' | h'
    · rw [h'] at h
      injection h with h
      rw [← h]; exact List.mem_cons_self a rest
    · have hj : rest.foldl pickSBest a = j := by injection h
      rw [hj] at h'
      exact List.mem_cons_of_mem a h'

theorem pickFastest_of_ne_nil {l : List Job} (h : l ≠ []) : ∃ j, pickFastest l = some j := by
  match l with
  | [] => exact absurd rfl h
  | a :: rest => exact ⟨rest.foldl pickFBest a, rfl⟩

theorem pickSlowest_of_ne_nil {l : List Job} (h : l ≠ []) : ∃ j, pickSlowest l = some j := by
  match l with
  | [] => exact absurd rfl h
  | a :: rest => exact ⟨rest.foldl pickSBest a, rfl⟩

theorem foldl_pickF_stays (M : Job) :
    ∀ l : List Job, (∀ x ∈ l, jobIpm x ≤ jobIpm M) → l.foldl pickFBest M = M := by
  intro l
  induction l with
  | nil => intro _; rfl
  | cons x xs ih =>
    intro h
    rw [List.foldl_cons]
    have hx : pickFBest M x = M := by
      rw [pickFBest, if_neg]
      exact not_lt.mpr (h x (List.mem_cons_self x xs))
    rw [hx]
    exact ih fun y hy => h y (List.mem_cons_of_mem x hy)

theorem foldl_pickF_under (c : Rat) :
    ∀ (l : List Job) (a : Job), (∀ x ∈ l, jobIpm x < c) → jobIpm a < c →
      jobIpm (l.foldl pickFBest a) < c := by
  intro l
  induction l with
  | nil => intro a _ ha; exact ha
  | cons x xs ih =>
    intro a h ha
    rw [List.foldl_cons]
    refine ih (pickFBest a x) (fun y hy => h y (List.mem_cons_of_mem x hy)) ?_
    rcases pickFBest_choice a x with h' | h' <;> rw [h']
    · exact ha
    · exact h x (List.mem_cons_self x xs)

theorem pickFastest_first_max (l1 l2 : List Job) (M : Job)
    (h1 : ∀ x ∈ l1, jobIpm x < jobIpm M) (h2 : ∀ x ∈ l2, jobIpm x ≤ jobIpm M) :
    pickFastest (l1 ++ M :: l2) = some M := by
  match l1 with
  | [] =>
    rw [List.nil_append, pickFastest]
    rw [foldl_pickF_stays M l2 h2]
  | a :: t =>
    rw [List.cons_append, pickFastest]
    rw [show t ++ M :: l2 = (t ++ [M]) ++ l2 by simp]
    rw [List.foldl_append, List.foldl_append]
    have ht : jobIpm (t.foldl pickFBest a) < jobIpm M :=
      foldl_pickF_under (jobIpm M) t a
        (fun y hy => h1 y (List.mem_cons_of_mem a hy))
        (h1 a (List.mem_cons_self a t))
    have hM : [M].foldl pickFBest (t.foldl pickFBest a) = M := by
      rw [List.foldl_cons, List.foldl_nil, pickFBest, if_pos ht]
    rw [hM, foldl_pickF_stays M l2 h2]

theorem batch_eta_isSome {w : Worker} (h : w.avg_ipm.isSome = true) (pB : Int) :
    ∃ e, w.batch_eta pB = some e := by
  rcases Option.isSome_iff_exists.mp h with ⟨r, hr⟩
  exact ⟨(pB : Rat) / r * 60, by rw [Worker.batch_eta, hr]; rfl⟩

theorem job_stall_isSome (jobs : List Job) (w : Worker) (pB : Int)
    (hw : w.avg_ipm.isSome = true)
    (hall : ∀ j ∈ jobs, j.worker.avg_ipm.isSome = true)
    (hne : realtime_jobs jobs ≠ []) :
    ∃ lag, job_stall jobs w pB = some lag := by
  rcases pickFastest_of_ne_nil hne with ⟨fj, hfj⟩
  have hmem : fj ∈ jobs := by
    have := pickFastest_mem hfj
    exact (List.mem_filter.mp this).1
  rw [job_stall, fastest_realtime_job, hfj]
  dsimp only
  by_cases huuid : w.uuid = fj.worker.uuid
  · rw [if_pos huuid]; exact ⟨0, rfl⟩
  · rw [if_neg huuid]
    rcases batch_eta_isSome hw pB with ⟨a, ha⟩
    rcases batch_eta_isSome (hall fj hmem) pB with ⟨b, hb⟩
    rw [ha, hb]
    exact ⟨a - b, rfl⟩

theorem workerReady_isSome {w : Worker} (h : workerReady w = true) :
    w.avg_ipm.isSome = true := by
  simp only [workerReady, Bool.and_eq_true] at h
  exact h.1.2

theorem workerReady_benchmarked {w : Worker} (h : workerReady w = true) :
    w.benchmarked = true := by
  simp only [workerReady, Bool.and_eq_true] at h
  exact h.1.1

theorem workerReady_isRT {j : Job} (h : workerReady j.worker = true)
    (hc : j.complementary = false) : isRT j = true := by
  simp only [isRT, Bool.and_eq_true]
  exact ⟨⟨workerReady_benchmarked h, workerReady_isSome h⟩, by simp [hc]⟩

theorem gcos_append (a b : List Job) :
    get_current_output_size (a ++ b) =
      get_current_output_size a + get_current_output_size b := by
  simp [get_current_output_size]

theorem gcos_cons (x : Job) (l : List Job) :
    get_current_output_size (x :: l) = x.batch_size + get_current_output_size l := by
  simp [get_current_output_size]

theorem phase1Go_spec (total : Int) (timeout : Rat) (pB : Int) (hpB : 0 ≤ pB) :
    ∀ (rem done : List Job) (d checked : Int),
      (∀ j ∈ done, j.worker.avg_ipm.isSome = true) →
      (∀ j ∈ rem, workerReady j.worker = true ∧ j.complementary = false) →
      0 ≤ d →
      d + checked ≤ pB * (done.length : Int) →
      checked = get_current_output_size done →
      ∃ rem2 dOut,
        phase1Go total timeout pB done rem d checked = some (done ++ rem2, dOut) ∧
        List.Forall₂ (phase1Shape pB) rem rem2 ∧
        0 ≤ dOut ∧
        dOut + get_current_output_size (done ++ rem2) ≤
          pB * ((done.length : Int) + (rem.length : Int)) := by
  intro rem
  induction rem with
  | nil =>
    intro done d checked h1 _ hd hbound hchecked
    refine ⟨[], d, ?_, List.Forall₂.nil, hd, ?_⟩
    · rw [phase1Go, List.append_nil]
    · rw [List.append_nil, ← hchecked]
      simpa using hbound
  | cons job rest ih =>
    intro done d checked h1 h2 hd hbound hchecked
    obtain ⟨hready, hcompl⟩ := h2 job (List.mem_cons_self job rest)
    have hjobSome : job.worker.avg_ipm.isSome = true := workerReady_isSome hready
    have hjobRT : isRT job = true := workerReady_isRT hready hcompl
    have hrt : realtime_jobs (done ++ job :: rest) ≠ [] := by
      refine List.ne_nil_of_mem (a := job) ?_
      exact List.mem_filter.mpr ⟨by simp, hjobRT⟩
    have hall : ∀ j ∈ done ++ job :: rest, j.worker.avg_ipm.isSome = true := by
      intro j hj
      rcases List.mem_append.mp hj with h | h
      · exact h1 j h
      · rcases List.mem_cons.mp h with h | h
        · rw [h]; exact hjobSome
        · exact workerReady_isSome (h2 j (List.mem_cons_of_mem job h)).1
    obtain ⟨lag, hlag⟩ := job_stall_isSome _ job.worker pB hjobSome hall hrt
    rw [phase1Go, hlag]
    dsimp only
    by_cases hfast : lag < timeout ∨ lag = 0
    · rw [if_pos hfast]
      have hdone' : ∀ j ∈ done ++ [{ job with batch_size := pB }],
          j.worker.avg_ipm.isSome = true := by
        intro j hj
        rcases List.mem_append.mp hj with h | h
        · exact h1 j h
        · rcases List.mem_singleton.mp h with h
          rw [h]; exact hjobSome
      have hrest : ∀ j ∈ rest, workerReady j.worker = true ∧ j.complementary = false :=
        fun j hj => h2 j (List.mem_cons_of_mem job hj)
      have hbound' : d + (checked + pB) ≤
          pB * (((done ++ [{ job with batch_size := pB }]).length : Int)) := by
        have : ((done ++ [{ job with batch_size := pB }]).length : Int) =
            (done.length : Int) + 1 := by push_cast; simp
        rw [this, mul_add, mul_one]
        omega
      have hchecked' : checked + pB =
          get_current_output_size (done ++ [{ job with batch_size := pB }]) := by
        rw [gcos_append, ← hchecked]
        simp [get_current_output_size]
      obtain ⟨rem2, dOut, heq, hrel, hd2, hb2⟩ :=
        ih (done ++ [{ job with batch_size := pB }]) d (checked + pB)
          hdone' hrest hd hbound' hchecked'
      refine ⟨{ job with batch_size := pB } :: rem2, dOut, ?_, ?_, hd2, ?_⟩
      · rw [heq]
        simp
      · exact List.Forall₂.cons (Or.inl rfl) hrel
      · have hlists : (done ++ [{ job with batch_size := pB }]) ++ rem2 =
            done ++ { job with batch_size := pB } :: rem2 := by simp
        rw [← hlists]
        have hlen : ((done ++ [{ job with batch_size := pB }]).length : Int) +
            (rest.length : Int) =
            (done.length : Int) + ((job :: rest).length : Int) := by
          push_cast; simp; omega
        rw [← hlen]
        exact hb2
    · rw [if_neg hfast]
      have hdone' : ∀ j ∈ done ++ [{ job with complementary := true, batch_size := 0 }],
          j.worker.avg_ipm.isSome = true := by
        intro j hj
        rcases List.mem_append.mp hj with h | h
        · exact h1 j h
        · rcases List.mem_singleton.mp h with h
          rw [h]; exact hjobSome
      have hrest : ∀ j ∈ rest, workerReady j.worker = true ∧ j.complementary = false :=
        fun j hj => h2 j (List.mem_cons_of_mem job hj)
      have hchecked' : checked =
          get_current_output_size
            (done ++ [{ job with complementary := true, batch_size := 0 }]) := by
        rw [gcos_append, ← hchecked]
        simp [get_current_output_size]
      have hlenD : ((done ++ [{ job with complementary := true, batch_size := 0 }]).length :
          Int) = (done.length : Int) + 1 := by push_cast; simp
      by_cases hcap : total < d + checked + pB
      · rw [if_pos hcap]
        have hbound' : d + checked ≤
            pB * (((done ++ [{ job with complementary := true, batch_size := 0 }]).length :
              Int)) := by
          rw [hlenD, mul_add, mul_one]
          have : 0 ≤ pB * (1 : Int) := by simpa using hpB
          nlinarith [hbound]
        obtain ⟨rem2, dOut, heq, hrel, hd2, hb2⟩ :=
          ih (done ++ [{ job with complementary := true, batch_size := 0 }]) d checked
            hdone' hrest hd hbound' hchecked'
        refine ⟨{ job with complementary := true, batch_size := 0 } :: rem2, dOut, ?_, ?_,
          hd2, ?_⟩
        · rw [heq]; simp
        · exact List.Forall₂.cons (Or.inr rfl) hrel
        · have hlists : (done ++ [{ job with complementary := true, batch_size := 0 }]) ++
              rem2 = done ++ { job with complementary := true, batch_size := 0 } :: rem2 := by
            simp
          rw [← hlists]
          have hlen : ((done ++ [{ job with complementary := true, batch_size := 0 }]).length :
              Int) + (rest.length : Int) =
              (done.length : Int) + ((job :: rest).length : Int) := by
            push_cast; simp; omega
          rw [← hlen]
          exact hb2
      · rw [if_neg hcap]
        have hbound' : (d + pB) + checked ≤
            pB * (((done ++ [{ job with complementary := true, batch_size := 0 }]).length :
              Int)) := by
          rw [hlenD, mul_add, mul_one]
          omega
        obtain ⟨rem2, dOut, heq, hrel, hd2, hb2⟩ :=
          ih (done ++ [{ job with complementary := true, batch_size := 0 }]) (d + pB) checked
            hdone' hrest (by omega) hbound' hchecked'
        refine ⟨{ job with complementary := true, batch_size := 0 } :: rem2, dOut, ?_, ?_,
          hd2, ?_⟩
        · rw [heq]; simp
        · exact List.Forall₂.cons (Or.inr rfl) hrel
        · have hlists : (done ++ [{ job with complementary := true, batch_size := 0 }]) ++
              rem2 = done ++ { job with complementary := true, batch_size := 0 } :: rem2 := by
            simp
          rw [← hlists]
          have hlen : ((done ++ [{ job with complementary := true, batch_size := 0 }]).length :
              Int) + (rest.length : Int) =
              (done.length : Int) + ((job :: rest).length : Int) := by
            push_cast; simp; omega
          rw [← hlen]
          exact hb2

theorem phase1Go_fastest (total : Int) (timeout : Rat) (pB : Int) (M : Job) :
    ∀ (A B done : List Job) (d checked : Int),
      (∀ j ∈ done, j.worker.avg_ipm.isSome = true) →
      (∀ j ∈ A, workerReady j.worker = true ∧ j.complementary = false) →
      (∀ j ∈ B, workerReady j.worker = true ∧ j.complementary = false) →
      workerReady M.worker = true → M.complementary = false →
      (∀ j ∈ done, jobIpm j < jobIpm M) →
      (∀ j ∈ A, jobIpm j < jobIpm M) →
      (∀ j ∈ B, jobIpm j ≤ jobIpm M) →
      0 ≤ d → 0 ≤ pB →
      d + checked ≤ pB * (done.length : Int) →
      checked = get_current_output_size done →
      ∃ A2 B2 dOut,
        phase1Go total timeout pB done (A ++ M :: B) d checked =
          some ((done ++ A2) ++ { M with batch_size := pB } :: B2, dOut) ∧
        A2.length = A.length := by
  intro A
  induction A with
  | nil =>
    intro B done d checked hdone hA hB hM hMc hltdone hltA hleB hd hpB hbound hchecked
    rw [List.nil_append]
    have hMRT : isRT M = true := workerReady_isRT hM hMc
    have hfilter : realtime_jobs (done ++ M :: B) =
        realtime_jobs done ++ M :: realtime_jobs B := by
      rw [realtime_jobs, List.filter_append, List.filter_cons, if_pos hMRT]
      rfl
    have hpick : pickFastest (realtime_jobs done ++ M :: realtime_jobs B) = some M := by
      refine pickFastest_first_max _ _ M ?_ ?_
      · intro x hx
        exact hltdone x (List.mem_filter.mp hx).1
      · intro x hx
        exact hleB x (List.mem_filter.mp hx).1
    have hstall : job_stall (done ++ M :: B) M.worker pB = some 0 := by
      rw [job_stall, fastest_realtime_job, hfilter, hpick]
      dsimp only
      rw [if_pos rfl]
    rw [phase1Go, hstall]
    dsimp only
    rw [if_pos (Or.inr rfl)]
    have hdone' : ∀ j ∈ done ++ [{ M with batch_size := pB }],
        j.worker.avg_ipm.isSome = true := by
      intro j hj
      rcases List.mem_append.mp hj with h | h
      · exact hdone j h
      · rw [List.mem_singleton.mp h]
        exact workerReady_isSome hM
    have hbound' : d + (checked + pB) ≤
        pB * (((done ++ [{ M with batch_size := pB }]).length : Int)) := by
      have : ((done ++ [{ M with batch_size := pB }]).length : Int) =
          (done.length : Int) + 1 := by simp
      rw [this, mul_add, mul_one]
      omega
    have hchecked' : checked + pB =
        get_current_output_size (done ++ [{ M with batch_size := pB }]) := by
      rw [gcos_append, ← hchecked]
      simp [get_current_output_size]
    obtain ⟨rem2, dOut, heq, _, _, _⟩ :=
      phase1Go_spec total timeout pB hpB B (done ++ [{ M with batch_size := pB }]) d
        (checked + pB) hdone' hB hd hbound' hchecked'
    refine ⟨[], rem2, dOut, ?_, rfl⟩
    rw [heq]
    simp
  | cons a A' ih =>
    intro B done d checked hdone hA hB hM hMc hltdone hltA hleB hd hpB hbound hchecked
    rw [List.cons_append]
    obtain ⟨haready, hacompl⟩ := hA a (List.mem_cons_self a A')
    have haSome : a.worker.avg_ipm.isSome = true := workerReady_isSome haready
    have haRT : isRT a = true := workerReady_isRT haready hacompl
    have hrt : realtime_jobs (done ++ a :: (A' ++ M :: B)) ≠ [] := by
      refine List.ne_nil_of_mem (a := a) ?_
      exact List.mem_filter.mpr ⟨by simp, haRT⟩
    have hall : ∀ j ∈ done ++ a :: (A' ++ M :: B), j.worker.avg_ipm.isSome = true := by
      intro j hj
      rcases List.mem_append.mp hj with h | h
      · exact hdone j h
      · rcases List.mem_cons.mp h with h | h
        · rw [h]; exact haSome
        · rcases List.mem_append.mp h with h | h
          · exact workerReady_isSome (hA j (List.mem_cons_of_mem a h)).1
          · rcases List.mem_cons.mp h with h | h
            · rw [h]; exact workerReady_isSome hM
            · exact workerReady_isSome (hB j h).1
    obtain ⟨lag, hlag⟩ := job_stall_isSome _ a.worker pB haSome hall hrt
    rw [phase1Go, hlag]
    dsimp only
    have hA' : ∀ j ∈ A', workerReady j.worker = true ∧ j.complementary = false :=
      fun j hj => hA j (List.mem_cons_of_mem a hj)
    have hltA' : ∀ j ∈ A', jobIpm j < jobIpm M :=
      fun j hj => hltA j (List.mem_cons_of_mem a hj)
    have haIpm : jobIpm a < jobIpm M := hltA a (List.mem_cons_self a A')
    by_cases hfast : lag < timeout ∨ lag = 0
    · rw [if_pos hfast]
      have hdone' : ∀ j ∈ done ++ [{ a with batch_size := pB }],
          j.worker.avg_ipm.isSome = true := by
        intro j hj
        rcases List.mem_append.mp hj with h | h
        · exact hdone j h
        · rw [List.mem_singleton.mp h]; exact haSome
      have hlt' : ∀ j ∈ done ++ [{ a with batch_size := pB }], jobIpm j < jobIpm M := by
        intro j hj
        rcases List.mem_append.mp hj with h | h
        · exact hltdone j h
        · rw [List.mem_singleton.mp h]; exact haIpm
      have hbound' : d + (checked + pB) ≤
          pB * (((done ++ [{ a with batch_size := pB }]).length : Int)) := by
        have : ((done ++ [{ a with batch_size := pB }]).length : Int) =
            (done.length : Int) + 1 := by simp
        rw [this, mul_add, mul_one]
        omega
      have hchecked' : checked + pB =
          get_current_output_size (done ++ [{ a with batch_size := pB }]) := by
        rw [gcos_append, ← hchecked]
        simp [get_current_output_size]
      obtain ⟨A2, B2, dOut, heq, hlen⟩ :=
        ih B (done ++ [{ a with batch_size := pB }]) d (checked + pB)
          hdone' hA' hB hM hMc hlt' hltA' hleB hd hpB hbound' hchecked'
      refine ⟨{ a with batch_size := pB } :: A2, B2, dOut, ?_, by simp [hlen]⟩
      rw [heq]
      simp
    · rw [if_neg hfast]
      have hdone' : ∀ j ∈ done ++ [{ a with complementary := true, batch_size := 0 }],
          j.worker.avg_ipm.isSome = true := by
        intro j hj
        rcases List.mem_append.mp hj with h | h
        · exact hdone j h
        · rw [List.mem_singleton.mp h]; exact haSome
      have hlt' : ∀ j ∈ done ++ [{ a with complementary := true, batch_size := 0 }],
          jobIpm j < jobIpm M := by
        intro j hj
        rcases List.mem_append.mp hj with h | h
        · exact hltdone j h
        · rw [List.mem_singleton.mp h]; exact haIpm
      have hchecked' : checked =
          get_current_output_size
            (done ++ [{ a with complementary := true, batch_size := 0 }]) := by
        rw [gcos_append, ← hchecked]
        simp [get_current_output_size]
      have hlenD : ((done ++ [{ a with complementary := true, batch_size := 0 }]).length :
          Int) = (done.length : Int) + 1 := by simp
      by_cases hcap : total < d + checked + pB
      · rw [if_pos hcap]
        have hbound' : d + checked ≤
            pB * (((done ++ [{ a with complementary := true, batch_size := 0 }]).length :
              Int)) := by
          rw [hlenD, mul_add, mul_one]
          omega
        obtain ⟨A2, B2, dOut, heq, hlen⟩ :=
          ih B (done ++ [{ a with complementary := true, batch_size := 0 }]) d checked
            hdone' hA' hB hM hMc hlt' hltA' hleB hd hpB hbound' hchecked'
        refine ⟨{ a with complementary := true, batch_size := 0 } :: A2, B2, dOut, ?_,
          by simp [hlen]⟩
        rw [heq]
        simp
      · rw [if_neg hcap]
        have hbound' : (d + pB) + checked ≤
            pB * (((done ++ [{ a with complementary := true, batch_size := 0 }]).length :
              Int)) := by
          rw [hlenD, mul_add, mul_one]
          omega
        obtain ⟨A2, B2, dOut, heq, hlen⟩ :=
          ih B (done ++ [{ a with complementary := true, batch_size := 0 }]) (d + pB) checked
            hdone' hA' hB hM hMc hlt' hltA' hleB (by omega) hpB hbound' hchecked'
        refine ⟨{ a with complementary := true, batch_size := 0 } :: A2, B2, dOut, ?_,
          by simp [hlen]⟩
        rw [heq]
        simp

theorem isRT_set_batch (j : Job) (v : Int) : isRT { j with batch_size := v } = isRT j :=
  rfl

theorem realtime_map_addPer (per : Int) (js : List Job) :
    realtime_jobs (js.map fun j =>
        if isRT j then { j with batch_size := j.batch_size + per } else j) =
      (realtime_jobs js).map fun j => { j with batch_size := j.batch_size + per } := by
  simp only [realtime_jobs]
  induction js with
  | nil => rfl
  | cons j rest ih =>
    by_cases h : isRT j = true
    · simp only [List.map_cons, List.filter_cons, h, if_true, isRT_set_batch, ih]
    · simp only [List.map_cons, List.filter_cons, h, if_false, Bool.false_eq_true, ih]

theorem gcos_map_addPer (per : Int) (js : List Job) :
    get_current_output_size (js.map fun j =>
        if isRT j then { j with batch_size := j.batch_size + per } else j) =
      get_current_output_size js + per * ((realtime_jobs js).length : Int) := by
  induction js with
  | nil => simp [get_current_output_size, realtime_jobs]
  | cons j rest ih =>
    by_cases h : isRT j = true
    · simp only [List.map_cons, gcos_cons, h, if_true, ih, realtime_jobs,
        List.filter_cons, List.length_cons]
      push_cast
      ring
    · simp only [List.map_cons, gcos_cons, h, if_false, Bool.false_eq_true, ih,
        realtime_jobs, List.filter_cons]
      ring

theorem rtIndicesFrom_mem_bounds :
    ∀ (js : List Job) (s i : Nat), i ∈ rtIndicesFrom s js → s ≤ i ∧ i < s + js.length := by
  intro js
  induction js with
  | nil => intro s i h; simp [rtIndicesFrom] at h
  | cons j rest ih =>
    intro s i h
    rw [rtIndicesFrom] at h
    by_cases hj : isRT j = true
    · rw [if_pos hj] at h
      rcases List.mem_cons.mp h with h | h
      · subst h; simp
      · have := ih (s + 1) i h
        simp only [List.length_cons]
        omega
    · rw [if_neg hj] at h
      have := ih (s + 1) i h
      simp only [List.length_cons]
      omega

theorem rtIndicesFrom_mem_isRT :
    ∀ (js : List Job) (s i : Nat), i ∈ rtIndicesFrom s js →
      isRT (js.getD (i - s) dummyJob) = true := by
  intro js
  induction js with
  | nil => intro s i h; simp [rtIndicesFrom] at h
  | cons j rest ih =>
    intro s i h
    rw [rtIndicesFrom] at h
    by_cases hj : isRT j = true
    · rw [if_pos hj] at h
      rcases List.mem_cons.mp h with h | h
      · subst h
        simp [hj]
      · have hb := rtIndicesFrom_mem_bounds rest (s + 1) i h
        have := ih (s + 1) i h
        have hsub : i - s = (i - (s + 1)) + 1 := by omega
        rw [hsub, List.getD_cons_succ]
        exact this
    · rw [if_neg hj] at h
      have hb := rtIndicesFrom_mem_bounds rest (s + 1) i h
      have := ih (s + 1) i h
      have hsub : i - s = (i - (s + 1)) + 1 := by omega
      rw [hsub, List.getD_cons_succ]
      exact this

theorem rtIndicesFrom_pairwise :
    ∀ (js : List Job) (s : Nat), (rtIndicesFrom s js).Pairwise (· < ·) := by
  intro js
  induction js with
  | nil => intro s; exact List.Pairwise.nil
  | cons j rest ih =>
    intro s
    rw [rtIndicesFrom]
    by_cases hj : isRT j = true
    · rw [if_pos hj]
      rw [List.pairwise_cons]
      refine ⟨?_, ih (s + 1)⟩
      intro i hi
      have := rtIndicesFrom_mem_bounds rest (s + 1) i hi
      omega
    · rw [if_neg hj]
      exact ih (s + 1)

theorem rtIndices_nodup (js : List Job) : (rtIndices js).Nodup :=
  (rtIndicesFrom_pairwise js 0).imp fun h => Nat.ne_of_lt h

theorem rtIndices_lt_length (js : List Job) : ∀ i ∈ rtIndices js, i < js.length := by
  intro i hi
  have := rtIndicesFrom_mem_bounds js 0 i hi
  omega

theorem rtIndicesFrom_map_getD :
    ∀ (js pre : List Job),
      (rtIndicesFrom pre.length js).map (fun k => (pre ++ js).getD k dummyJob) =
        js.filter isRT := by
  intro js
  induction js with
  | nil => intro pre; rfl
  | cons j rest ih =>
    intro pre
    rw [rtIndicesFrom, List.filter_cons]
    have hpre : ∀ k, (pre ++ [j]).length ≤ k →
        ((pre ++ [j]) ++ rest).getD k dummyJob = (pre ++ j :: rest).getD k dummyJob := by
      intro k _
      rw [show (pre ++ [j]) ++ rest = pre ++ j :: rest by simp]
    have htail : (rtIndicesFrom (pre.length + 1) rest).map
        (fun k => (pre ++ j :: rest).getD k dummyJob) = rest.filter isRT := by
      have := ih (pre ++ [j])
      rw [List.length_append, List.length_cons] at this
      simp only [List.length_nil] at this
      rw [show (pre ++ [j]) ++ rest = pre ++ j :: rest by simp] at this
      simpa using this
    by_cases hj : isRT j = true
    · rw [if_pos hj, if_pos hj, List.map_cons]
      have hhead : (pre ++ j :: rest).getD pre.length dummyJob = j := by
        rw [List.getD_append_right pre (j :: rest) dummyJob pre.length le_rfl]
        simp
      rw [hhead]
      exact congrArg _ htail
    · rw [if_neg hj, if_neg hj]
      exact htail

theorem rtIndices_map_getD (js : List Job) :
    (rtIndices js).map (fun k => js.getD k dummyJob) = realtime_jobs js := by
  have := rtIndicesFrom_map_getD js []
  simpa [rtIndices, realtime_jobs] using this

theorem rtIndicesFrom_congr :
    ∀ (js js' : List Job) (s : Nat), js.length = js'.length →
      (∀ i, i < js.length →
        isRT (js.getD i dummyJob) = isRT (js'.getD i dummyJob)) →
      rtIndicesFrom s js = rtIndicesFrom s js' := by
  intro js
  induction js with
  | nil =>
    intro js' s hlen _
    cases js' with
    | nil => rfl
    | cons a b => simp at hlen
  | cons j rest ih =>
    intro js' s hlen hpt
    cases js' with
    | nil => simp at hlen
    | cons j' rest' =>
      have hhead : isRT j = isRT j' := by
        have := hpt 0 (by simp)
        simpa using this
      have htail : rtIndicesFrom (s + 1) rest = rtIndicesFrom (s + 1) rest' := by
        refine ih rest' (s + 1) (by simpa using hlen) ?_
        intro i hi
        have := hpt (i + 1) (by simpa using Nat.succ_lt_succ hi)
        simpa using this
      rw [rtIndicesFrom, rtIndicesFrom, hhead, htail]

theorem bumpAt_length (js : List Job) (i : Nat) : (bumpAt js i).length = js.length := by
  simp [bumpAt]

theorem bumpAt_getD_self (js : List Job) (i : Nat) (h : i < js.length) :
    (bumpAt js i).getD i dummyJob =
      { js.getD i dummyJob with batch_size := (js.getD i dummyJob).batch_size + 1 } := by
  rw [bumpAt, List.getD_eq_getElem?_getD, List.getElem?_set_self h]
  rfl

theorem bumpAt_getD_ne (js : List Job) (i k : Nat) (h : i ≠ k) :
    (bumpAt js i).getD k dummyJob = js.getD k dummyJob := by
  rw [bumpAt, List.getD_eq_getElem?_getD, List.getElem?_set_ne h,
    ← List.getD_eq_getElem?_getD]

theorem gcos_bumpAt : ∀ (js : List Job) (i : Nat), i < js.length →
    get_current_output_size (bumpAt js i) = get_current_output_size js + 1 := by
  intro js
  induction js with
  | nil => intro i h; simp at h
  | cons j rest ih =>
    intro i h
    cases i with
    | zero =>
      simp only [bumpAt, List.getD_cons_zero, List.set_cons_zero]
      rw [gcos_cons, gcos_cons]
      ring
    | succ n =>
      have : bumpAt (j :: rest) (n + 1) = j :: bumpAt rest n := by
        simp [bumpAt, List.getD_cons_succ]
      rw [this, gcos_cons, gcos_cons, ih n (by simpa using Nat.lt_of_succ_lt_succ h)]
      ring

theorem bumpAll_length : ∀ (o : List Nat) (js : List Job),
    (bumpAll o js).length = js.length := by
  intro o
  induction o with
  | nil => intro js; rfl
  | cons i o' ih => intro js; rw [bumpAll, ih, bumpAt_length]

theorem bumpAll_getD_not_mem : ∀ (o : List Nat) (js : List Job) (i : Nat), i ∉ o →
    (bumpAll o js).getD i dummyJob = js.getD i dummyJob := by
  intro o
  induction o with
  | nil => intro js i _; rfl
  | cons k o' ih =>
    intro js i h
    rw [bumpAll, ih _ _ (fun hm => h (List.mem_cons_of_mem k hm)),
      bumpAt_getD_ne _ _ _ (fun he => h (by rw [← he]; exact List.mem_cons_self k o'))]

theorem bumpAll_getD_mem : ∀ (o : List Nat) (js : List Job) (i : Nat), o.Nodup → i ∈ o →
    i < js.length →
    (bumpAll o js).getD i dummyJob =
      { js.getD i dummyJob with batch_size := (js.getD i dummyJob).batch_size + 1 } := by
  intro o
  induction o with
  | nil => intro js i _ h _; simp at h
  | cons k o' ih =>
    intro js i hnd hmem hlen
    rw [bumpAll]
    rcases List.mem_cons.mp hmem with h | h
    · subst h
      have hnot : i ∉ o' := (List.nodup_cons.mp hnd).1
      rw [bumpAll_getD_not_mem o' _ i hnot, bumpAt_getD_self js i hlen]
    · have hne : k ≠ i := by
        intro he
        exact (List.nodup_cons.mp hnd).1 (he ▸ h)
      rw [ih (bumpAt js k) i (List.nodup_cons.mp hnd).2 h (by rw [bumpAt_length]; exact hlen),
        bumpAt_getD_ne js k i hne]

theorem gcos_bumpAll : ∀ (o : List Nat) (js : List Job), (∀ i ∈ o, i < js.length) →
    get_current_output_size (bumpAll o js) =
      get_current_output_size js + (o.length : Int) := by
  intro o
  induction o with
  | nil => intro js _; simp [bumpAll]
  | cons k o' ih =>
    intro js h
    rw [bumpAll, ih (bumpAt js k)
      (fun i hi => by rw [bumpAt_length]; exact h i (List.mem_cons_of_mem k hi)),
      gcos_bumpAt js k (h k (List.mem_cons_self k o'))]
    simp only [List.length_cons]
    push_cast
    ring

theorem rrPass_full : ∀ (o : List Nat) (js : List Job) (rem : Int),
    (o.length : Int) ≤ rem →
    rrPass o js rem = (bumpAll o js, rem - (o.length : Int)) := by
  intro o
  induction o with
  | nil => intro js rem _; simp [rrPass, bumpAll]
  | cons i o' ih =>
    intro js rem h
    have hlen : ((i :: o').length : Int) = (o'.length : Int) + 1 := by
      simp only [List.length_cons]
      push_cast
      ring
    rw [rrPass, if_neg (by omega)]
    rw [ih (bumpAt js i) (rem - 1) (by omega)]
    rw [show bumpAll o' (bumpAt js i) = bumpAll (i :: o') js from rfl]
    have : rem - 1 - (o'.length : Int) = rem - ((i :: o').length : Int) := by
      rw [hlen]; ring
    rw [this]

theorem rrPass_part : ∀ (o : List Nat) (js : List Job) (rem : Int),
    0 ≤ rem → rem < (o.length : Int) →
    rrPass o js rem = (bumpAll (o.take rem.toNat) js, 0) := by
  intro o
  induction o with
  | nil =>
    intro js rem h1 h2
    simp at h2
    omega
  | cons i o' ih =>
    intro js rem h1 h2
    by_cases hz : rem < 1
    · have h0 : rem = 0 := by omega
      rw [rrPass, if_pos hz, h0]
      simp [bumpAll]
    · rw [rrPass, if_neg hz]
      have hlen : ((i :: o').length : Int) = (o'.length : Int) + 1 := by
        simp only [List.length_cons]
        push_cast
        ring
      rw [ih (bumpAt js i) (rem - 1) (by omega) (by omega)]
      have htake : (i :: o').take rem.toNat = i :: o'.take (rem - 1).toNat := by
        have : rem.toNat = (rem - 1).toNat + 1 := by omega
        rw [this, List.take_succ_cons]
      rw [htake]
      rfl

theorem rrLoop_uniform (order : List Nat) (hne : order ≠ []) (hnd : order.Nodup) :
    ∀ (fuel : Nat) (js : List Job) (rem c : Int),
      0 ≤ rem → rem.toNat ≤ fuel →
      (∀ i ∈ order, i < js.length) →
      (∀ i ∈ order, (js.getD i dummyJob).batch_size = c) →
      ∃ js2 q t,
        rrLoop fuel order js rem = some js2 ∧
        js2.length = js.length ∧
        0 ≤ q ∧ t ≤ order.length ∧
        (∀ i, i ∉ order → js2.getD i dummyJob = js.getD i dummyJob) ∧
        (∀ p, p < order.length →
          (js2.getD (order.getD p 0) dummyJob).worker =
            (js.getD (order.getD p 0) dummyJob).worker ∧
          (js2.getD (order.getD p 0) dummyJob).complementary =
            (js.getD (order.getD p 0) dummyJob).complementary ∧
          (js2.getD (order.getD p 0) dummyJob).batch_size =
            c + q + (if p < t then 1 else 0)) ∧
        get_current_output_size js2 = get_current_output_size js + rem := by
  intro fuel
  induction fuel with
  | zero =>
    intro js rem c h0 hfuel hlen hunif
    have hrem : rem = 0 := by omega
    subst hrem
    refine ⟨js, 0, 0, ?_, rfl, le_refl 0, Nat.zero_le _, fun i _ => rfl, ?_, by ring⟩
    · rw [rrLoop]
      norm_num
    · intro p hp
      have hmem : order.getD p 0 ∈ order := by
        rw [List.getD_eq_getElem order 0 hp]
        exact List.getElem_mem hp
      refine ⟨rfl, rfl, ?_⟩
      rw [hunif _ hmem]
      simp
  | succ f ih =>
    intro js rem c h0 hfuel hlen hunif
    by_cases hz : rem < 1
    · have hrem : rem = 0 := by omega
      subst hrem
      refine ⟨js, 0, 0, ?_, rfl, le_refl 0, Nat.zero_le _, fun i _ => rfl, ?_, by ring⟩
      · rw [rrLoop]
        norm_num
      · intro p hp
        have hmem : order.getD p 0 ∈ order := by
          rw [List.getD_eq_getElem order 0 hp]
          exact List.getElem_mem hp
        refine ⟨rfl, rfl, ?_⟩
        rw [hunif _ hmem]
        simp
    · have hordlen : 1 ≤ (order.length : Int) := by
        have : order.length ≠ 0 := fun h => hne (List.length_eq_zero.mp h)
        omega
      rw [rrLoop, if_neg hz]
      by_cases hfull : (order.length : Int) ≤ rem
      · rw [rrPass_full order js rem hfull]
        have hlen' : ∀ i ∈ order, i < (bumpAll order js).length := by
          intro i hi; rw [bumpAll_length]; exact hlen i hi
        have hunif' : ∀ i ∈ order,
            ((bumpAll order js).getD i dummyJob).batch_size = c + 1 := by
          intro i hi
          rw [bumpAll_getD_mem order js i hnd hi (hlen i hi)]
          rw [hunif i hi]
        obtain ⟨js2, q, t, heq, hlen2, hq, ht, hother, hpat, hsum⟩ :=
          ih (bumpAll order js) (rem - (order.length : Int)) (c + 1)
            (by omega) (by omega) hlen' hunif'
        refine ⟨js2, q + 1, t, heq, by rw [hlen2, bumpAll_length], by omega, ht, ?_, ?_, ?_⟩
        · intro i hi
          rw [hother i hi, bumpAll_getD_not_mem order js i hi]
        · intro p hp
          have hmem : order.getD p 0 ∈ order := by
            rw [List.getD_eq_getElem order 0 hp]
            exact List.getElem_mem hp
          obtain ⟨hw, hc, hb⟩ := hpat p hp
          have hbump := bumpAll_getD_mem order js _ hnd hmem (hlen _ hmem)
          refine ⟨?_, ?_, ?_⟩
          · rw [hw, hbump]
          · rw [hc, hbump]
          · rw [hb]
            ring
        · rw [hsum, gcos_bumpAll order js hlen]
          ring
      · rw [rrPass_part order js rem h0 (by omega)]
        have hres : rrLoop f order (bumpAll (order.take rem.toNat) js) 0 =
            some (bumpAll (order.take rem.toNat) js) := by
          rw [rrLoop.eq_def]
          norm_num
        rw [hres]
        have hsub : ∀ i ∈ order.take rem.toNat, i ∈ order :=
          fun i hi => (List.take_sublist _ _).mem hi
        have htnd : (order.take rem.toNat).Nodup := (List.take_sublist _ _).nodup hnd
        refine ⟨bumpAll (order.take rem.toNat) js, 0, rem.toNat,
          rfl, bumpAll_length _ _, le_refl 0, by omega, ?_, ?_, ?_⟩
        · intro i hi
          exact bumpAll_getD_not_mem _ js i (fun hm => hi (hsub i hm))
        · intro p hp
          have hget : order.getD p 0 = order[p] := List.getD_eq_getElem order 0 hp
          have hmem : order.getD p 0 ∈ order := by
            rw [hget]; exact List.getElem_mem hp
          by_cases hpt : p < rem.toNat
          · have hmemtake : order.getD p 0 ∈ order.take rem.toNat := by
              have hlt : p < (order.take rem.toNat).length := by
                rw [List.length_take]
                omega
              have heq2 : (order.take rem.toNat)[p] = order[p] := List.getElem_take order
              rw [hget, ← heq2]
              exact List.getElem_mem hlt
            have hbump := bumpAll_getD_mem _ js _ htnd hmemtake (hlen _ hmem)
            refine ⟨by rw [hbump], by rw [hbump], ?_⟩
            rw [hbump]
            show (js.getD (order.getD p 0) dummyJob).batch_size + 1 = _
            rw [hunif _ hmem]
            simp [hpt]
          · have hnotmem : order.getD p 0 ∉ order.take rem.toNat := by
              intro hmemtake
              rcases List.mem_take_iff_getElem.mp hmemtake with ⟨p2, hp2, he⟩
              have hp2len : p2 < order.length := by omega
              rw [hget] at he
              have : p2 = p := (@List.Nodup.getElem_inj_iff _ _ hnd _ hp2len _ hp).mp he
              omega
            have hkeep := bumpAll_getD_not_mem _ js _ hnotmem
            refine ⟨by rw [hkeep], by rw [hkeep], ?_⟩
            rw [hkeep, hunif _ hmem]
            simp [hpt]
        · rw [gcos_bumpAll _ js (fun i hi => hlen i (hsub i hi)), List.length_take]
          have : min rem.toNat order.length = rem.toNat := by omega
          rw [this]
          omega

theorem insertByBatch_uniform (js : List Job) (c : Int) (i : Nat)
    (hi : (js.getD i dummyJob).batch_size = c) :
    ∀ l : List Nat, (∀ k ∈ l, (js.getD k dummyJob).batch_size = c) →
      insertByBatch js i l = i :: l := by
  intro l hl
  cases l with
  | nil => rfl
  | cons k rest =>
    rw [insertByBatch, if_pos]
    rw [hi, hl k (List.mem_cons_self k rest)]

theorem sortIdx_uniform (js : List Job) (c : Int) :
    ∀ l : List Nat, (∀ k ∈ l, (js.getD k dummyJob).batch_size = c) →
      sortIdx js l = l := by
  intro l
  induction l with
  | nil => intro _; rfl
  | cons i rest ih =>
    intro h
    rw [sortIdx, ih (fun k hk => h k (List.mem_cons_of_mem i hk)),
      insertByBatch_uniform js c i (h i (List.mem_cons_self i rest)) rest
        (fun k hk => h k (List.mem_cons_of_mem i hk))]

theorem isRT_false_of_compl {j : Job} (h : j.complementary = true) : isRT j = false := by
  simp [isRT, h]

theorem isRT_compl_false {j : Job} (h : isRT j = true) : j.complementary = false := by
  simp only [isRT, Bool.and_eq_true, Bool.not_eq_true'] at h
  exact h.2

theorem compl_of_ready_not_isRT {j : Job} (hr : workerReady j.worker = true)
    (h : isRT j = false) : j.complementary = true := by
  by_cases hc : j.complementary = true
  · exact hc
  · have : j.complementary = false := by
      revert hc; cases j.complementary <;> simp
    rw [workerReady_isRT hr this] at h
    cases h

theorem getD_mem {l : List Job} {i : Nat} (h : i < l.length) : l.getD i dummyJob ∈ l := by
  rw [List.getD_eq_getElem l dummyJob h]
  exact List.getElem_mem h

theorem mem_exists_getD {l : List Job} {j : Job} (h : j ∈ l) :
    ∃ i, i < l.length ∧ l.getD i dummyJob = j := by
  rcases List.mem_iff_getElem.mp h with ⟨i, hi, he⟩
  exact ⟨i, hi, by rw [List.getD_eq_getElem l dummyJob hi]; exact he⟩

theorem forall₂_mem_right {R : Job → Job → Prop} :
    ∀ {l1 l2 : List Job}, List.Forall₂ R l1 l2 → ∀ b ∈ l2, ∃ a ∈ l1, R a b := by
  intro l1 l2 h
  induction h with
  | nil => intro b hb; simp at hb
  | cons hr _ ih =>
    intro b hb
    rcases List.mem_cons.mp hb with hb | hb
    · exact ⟨_, List.mem_cons_self _ _, hb ▸ hr⟩
    · rcases ih b hb with ⟨a, ha, har⟩
      exact ⟨a, List.mem_cons_of_mem _ ha, har⟩

theorem forall₂_getD {R : Job → Job → Prop} :
    ∀ {l1 l2 : List Job}, List.Forall₂ R l1 l2 → ∀ i, i < l1.length →
      R (l1.getD i dummyJob) (l2.getD i dummyJob) := by
  intro l1 l2 h
  induction h with
  | nil => intro i hi; simp at hi
  | cons hr hrest ih =>
    intro i hi
    cases i with
    | zero => simpa using hr
    | succ k =>
      rw [List.getD_cons_succ, List.getD_cons_succ]
      exact ih k (by simpa using Nat.lt_of_succ_lt_succ hi)

theorem gcos_nonneg (l : List Job) (h : ∀ j ∈ l, 0 ≤ j.batch_size) :
    0 ≤ get_current_output_size l := by
  induction l with
  | nil => simp [get_current_output_size]
  | cons j rest ih =>
    rw [gcos_cons]
    have := h j (List.mem_cons_self j rest)
    have := ih fun x hx => h x (List.mem_cons_of_mem j hx)
    omega

theorem gcos_split_rt (l : List Job) (h : ∀ j ∈ l, isRT j = false → j.batch_size = 0) :
    get_current_output_size (realtime_jobs l) = get_current_output_size l := by
  induction l with
  | nil => rfl
  | cons j rest ih =>
    have ihr := ih fun x hx => h x (List.mem_cons_of_mem j hx)
    rw [realtime_jobs, List.filter_cons]
    by_cases hj : isRT j = true
    · rw [if_pos hj, gcos_cons, gcos_cons]
      rw [realtime_jobs] at ihr
      rw [ihr]
    · rw [if_neg hj, gcos_cons]
      rw [realtime_jobs] at ihr
      rw [ihr, h j (List.mem_cons_self j rest) (by revert hj; cases isRT j <;> simp)]
      ring

theorem gcos_rt_filter_keep (l : List Job)
    (hge : ∀ j ∈ l, isRT j = true → 0 ≤ j.batch_size) :
    get_current_output_size
        (realtime_jobs (l.filter fun x => decide (1 ≤ x.batch_size))) =
      get_current_output_size (realtime_jobs l) := by
  induction l with
  | nil => rfl
  | cons j rest ih =>
    have ihr := ih fun x hx hrt => hge x (List.mem_cons_of_mem j hx) hrt
    rw [realtime_jobs, realtime_jobs, List.filter_cons, List.filter_cons]
    by_cases hk : decide (1 ≤ j.batch_size) = true
    · rw [if_pos hk, List.filter_cons]
      by_cases hj : isRT j = true
      · rw [if_pos hj, if_pos hj, gcos_cons, gcos_cons]
        rw [realtime_jobs, realtime_jobs] at ihr
        rw [ihr]
      · rw [if_neg hj, if_neg hj]
        rw [realtime_jobs, realtime_jobs] at ihr
        exact ihr
    · rw [if_neg hk]
      by_cases hj : isRT j = true
      · rw [if_pos hj, gcos_cons]
        have hb0 : j.batch_size = 0 := by
          have h1 := hge j (List.mem_cons_self j rest) hj
          have h2 : ¬(1 ≤ j.batch_size) := by
            intro hge1
            exact hk (by simp [hge1])
          omega
        rw [realtime_jobs, realtime_jobs] at ihr
        rw [ihr, hb0]
        ring
      · rw [if_neg hj]
        rw [realtime_jobs, realtime_jobs] at ihr
        exact ihr

theorem realtime_forall2 : ∀ {js3 js4 : List Job},
    List.Forall₂ (fun o n => (o.complementary = false ∧ n = o) ∨
      (o.complementary = true ∧ n.worker = o.worker ∧ n.complementary = true)) js3 js4 →
    realtime_jobs js4 = realtime_jobs js3 := by
  intro js3
  induction js3 with
  | nil =>
    intro js4 h
    cases h
    rfl
  | cons o l1 ih =>
    intro js4 h
    cases h with
    | cons hr hrest =>
      rename_i n l2
      have ihr := ih hrest
      rw [realtime_jobs, realtime_jobs, List.filter_cons, List.filter_cons]
      rw [realtime_jobs, realtime_jobs] at ihr
      rcases hr with ⟨hc, hn⟩ | ⟨hc, _, hcn⟩
      · rw [hn]
        by_cases hj : isRT o = true
        · rw [if_pos hj, if_pos hj, ihr]
        · rw [if_neg hj, if_neg hj, ihr]
      · rw [if_neg (by rw [isRT_false_of_compl hcn]; simp),
          if_neg (by rw [isRT_false_of_compl hc]; simp), ihr]

theorem phase4Go_spec (pB : Int) (per : Option Int) :
    ∀ (rem done : List Job),
      (∀ j ∈ done ++ rem, j.worker.avg_ipm.isSome = true) →
      realtime_jobs (done ++ rem) ≠ [] →
      ∃ rem2, phase4Go pB per done rem = some (done ++ rem2) ∧
        List.Forall₂ (fun o n => (o.complementary = false ∧ n = o) ∨
          (o.complementary = true ∧ n.worker = o.worker ∧ n.complementary = true))
          rem rem2 := by
  intro rem
  induction rem with
  | nil =>
    intro done _ _
    refine ⟨[], ?_, List.Forall₂.nil⟩
    rw [phase4Go, List.append_nil]
  | cons job rest ih =>
    intro done hsome hrt
    rw [phase4Go]
    by_cases hc : job.complementary = false
    · rw [if_pos hc]
      have hsome' : ∀ j ∈ (done ++ [job]) ++ rest, j.worker.avg_ipm.isSome = true := by
        intro j hj
        refine hsome j ?_
        rw [show (done ++ [job]) ++ rest = done ++ job :: rest by simp] at hj
        exact hj
      have hrt' : realtime_jobs ((done ++ [job]) ++ rest) ≠ [] := by
        rw [show (done ++ [job]) ++ rest = done ++ job :: rest by simp]
        exact hrt
      obtain ⟨rem2, heq, hrel⟩ := ih (done ++ [job]) hsome' hrt'
      refine ⟨job :: rem2, ?_, List.Forall₂.cons (Or.inl ⟨hc, rfl⟩) hrel⟩
      rw [heq]
      simp
    · have hcT : job.complementary = true := by
        revert hc; cases job.complementary <;> simp
      rw [if_neg hc]
      obtain ⟨sj, hsj⟩ := pickSlowest_of_ne_nil hrt
      have hsjmem : sj ∈ done ++ job :: rest := (List.mem_filter.mp (pickSlowest_mem hsj)).1
      obtain ⟨slack0, hslack⟩ := batch_eta_isSome (hsome sj hsjmem) pB
      obtain ⟨secs, hsecs⟩ := batch_eta_isSome (hsome job (by simp)) 1
      rw [slowest_realtime_job] at *
      rw [hsj]
      dsimp only
      rw [hslack]
      dsimp only
      rw [hsecs]
      dsimp only
      suffices hstep : ∀ v : Int, ∃ rem2,
          phase4Go pB per (done ++ [{ job with batch_size := v }]) rest =
            some (done ++ rem2) ∧
          List.Forall₂ (fun o n => (o.complementary = false ∧ n = o) ∨
            (o.complementary = true ∧ n.worker = o.worker ∧ n.complementary = true))
            (job :: rest) rem2 by
        exact hstep _
      intro v
      have hsome2 : ∀ j ∈ (done ++ [{ job with batch_size := v }]) ++ rest,
          j.worker.avg_ipm.isSome = true := by
        intro j hj
        rw [show (done ++ [{ job with batch_size := v }]) ++ rest =
          done ++ { job with batch_size := v } :: rest by simp] at hj
        rcases List.mem_append.mp hj with h | h
        · exact hsome j (List.mem_append.mpr (Or.inl h))
        · rcases List.mem_cons.mp h with h | h
          · rw [h]
            exact hsome job (by simp)
          · exact hsome j (by simp [h])
      have hrt2 : realtime_jobs ((done ++ [{ job with batch_size := v }]) ++ rest) ≠ [] := by
        have he : realtime_jobs ((done ++ [{ job with batch_size := v }]) ++ rest) =
            realtime_jobs (done ++ job :: rest) := by
          rw [show (done ++ [{ job with batch_size := v }]) ++ rest =
            done ++ { job with batch_size := v } :: rest by simp]
          rw [realtime_jobs, realtime_jobs, List.filter_append, List.filter_append,
            List.filter_cons, List.filter_cons]
          rw [if_neg (by rw [isRT_false_of_compl (show ({ job with batch_size := v } :
              Job).complementary = true from hcT)]; simp),
            if_neg (by rw [isRT_false_of_compl hcT]; simp)]
        rw [he]
        exact hrt
      obtain ⟨rem2, heq, hrel⟩ := ih (done ++ [{ job with batch_size := v }]) hsome2 hrt2
      refine ⟨{ job with batch_size := v } :: rem2, ?_,
        List.Forall₂.cons (Or.inr ⟨hcT, rfl, hcT⟩) hrel⟩
      rw [heq]
      simp

theorem phase1Shape_worker {pB : Int} {o j : Job} (h : phase1Shape pB o j) :
    j.worker = o.worker := by
  rcases h with h | h <;> rw [h]

theorem phase1Shape_fields {pB : Int} {o j : Job} (h : phase1Shape pB o j)
    (hc : o.complementary = false) :
    (j.complementary = false ∧ j.batch_size = pB) ∨
    (j.complementary = true ∧ j.batch_size = 0) := by
  rcases h with h | h
  · left
    exact ⟨by rw [h]; exact hc, by rw [h]⟩
  · right
    exact ⟨by rw [h], by rw [h]⟩

theorem isRT_congr {j j' : Job} (hw : j.worker = j'.worker)
    (hc : j.complementary = j'.complementary) : isRT j = isRT j' := by
  simp [isRT, hw, hc]

theorem phase2_spec (d : Int) (js1 : List Job) (total pB : Int)
    (hd : 0 ≤ d)
    (hbound : d + get_current_output_size js1 ≤ total)
    (hready : ∀ j ∈ js1, workerReady j.worker = true)
    (hfields : ∀ j ∈ js1, (j.complementary = false ∧ j.batch_size = pB) ∨
      (j.complementary = true ∧ j.batch_size = 0))
    (hrtne : realtime_jobs js1 ≠ [])
    (hpB0 : 0 ≤ pB) :
    ∃ js2 per c,
      phase2 d js1 = some (js2, per) ∧ 0 ≤ c ∧
      (∀ j ∈ realtime_jobs js2, j.batch_size = c) ∧
      get_current_output_size js2 ≤ total ∧
      js2.length = js1.length ∧
      (∀ i, i < js1.length →
        (js2.getD i dummyJob).worker = (js1.getD i dummyJob).worker ∧
        (js2.getD i dummyJob).complementary = (js1.getD i dummyJob).complementary) ∧
      (∀ j ∈ js2, workerReady j.worker = true) ∧
      (∀ j ∈ js2, isRT j = false → j.batch_size = 0) ∧
      realtime_jobs js2 ≠ [] := by
  have hzero1 : ∀ j ∈ js1, isRT j = false → j.batch_size = 0 := by
    intro j hj hn
    have hc := compl_of_ready_not_isRT (hready j hj) hn
    rcases hfields j hj with ⟨hcf, _⟩ | ⟨_, hb⟩
    · rw [hc] at hcf; cases hcf
    · exact hb
  have hrtbatch1 : ∀ j ∈ realtime_jobs js1, j.batch_size = pB := by
    intro j hj
    have hm := List.mem_filter.mp hj
    rcases hfields j hm.1 with ⟨_, hb⟩ | ⟨hct, _⟩
    · exact hb
    · rw [isRT_false_of_compl hct] at hm
      cases hm.2
  by_cases hd0 : 0 < d
  · have hm0 : (realtime_jobs js1).length ≠ 0 := by
      intro h
      exact hrtne (List.length_eq_zero.mp h)
    have hp2 : phase2 d js1 =
        some (js1.map fun j =>
          if isRT j then { j with batch_size :=
            j.batch_size + Int.fdiv d ((realtime_jobs js1).length : Int) } else j,
          some (Int.fdiv d ((realtime_jobs js1).length : Int))) := by
      rw [phase2, if_pos hd0]
      simp only [hm0, if_false]
    set per0 := Int.fdiv d ((realtime_jobs js1).length : Int) with hper0
    have hper0nn : 0 ≤ per0 := Int.fdiv_nonneg hd (by positivity)
    have hperm : per0 * ((realtime_jobs js1).length : Int) ≤ d := by
      rw [hper0, Int.fdiv_eq_ediv d (by positivity)]
      exact Int.ediv_mul_le d (by exact_mod_cast hm0)
    refine ⟨_, _, pB + per0, hp2, by omega, ?_, ?_, by simp, ?_, ?_, ?_, ?_⟩
    · intro j hj
      rw [realtime_map_addPer] at hj
      rcases List.mem_map.mp hj with ⟨o, ho, he⟩
      rw [← he]
      show o.batch_size + per0 = pB + per0
      rw [hrtbatch1 o ho]
    · rw [gcos_map_addPer]
      omega
    · intro i hi
      have hdm : (fun j => if isRT j then { j with batch_size := j.batch_size + per0 }
          else j) dummyJob = dummyJob := rfl
      have hmap : (js1.map fun j =>
          if isRT j then { j with batch_size := j.batch_size + per0 } else j).getD i
            dummyJob =
          (fun j => if isRT j then { j with batch_size := j.batch_size + per0 } else j)
            (js1.getD i dummyJob) := by
        conv_lhs => rw [show dummyJob = (fun j =>
          if isRT j then { j with batch_size := j.batch_size + per0 } else j) dummyJob
          from rfl]
        exact List.getD_map js1 dummyJob _
      rw [hmap]
      dsimp only
      by_cases hj : isRT (js1.getD i dummyJob) = true
      · rw [if_pos hj]
        exact ⟨rfl, rfl⟩
      · rw [if_neg hj]
        exact ⟨rfl, rfl⟩
    · intro j hj
      rcases List.mem_map.mp hj with ⟨o, ho, he⟩
      have : j.worker = o.worker := by
        rw [← he]
        by_cases ho2 : isRT o = true <;> simp [ho2]
      rw [this]
      exact hready o ho
    · intro j hj hn
      rcases List.mem_map.mp hj with ⟨o, ho, he⟩
      by_cases ho2 : isRT o = true
      · rw [← he] at hn
        rw [if_pos ho2] at hn
        rw [isRT_set_batch] at hn
        rw [ho2] at hn
        cases hn
      · rw [← he, if_neg ho2]
        exact hzero1 o ho (by revert ho2; cases isRT o <;> simp)
    · rw [realtime_map_addPer]
      intro h
      rw [List.map_eq_nil] at h
      exact hrtne h
  · refine ⟨js1, none, pB, ?_, hpB0, hrtbatch1, by omega, rfl,
      fun i _ => ⟨rfl, rfl⟩, hready, hzero1, hrtne⟩
    rw [phase2, if_neg hd0]

theorem phase3_spec (total : Int) (fuel : Nat) (js2 : List Job) (c : Int)
    (hc : 0 ≤ c)
    (hcrt : ∀ j ∈ realtime_jobs js2, j.batch_size = c)
    (hzero : ∀ j ∈ js2, isRT j = false → j.batch_size = 0)
    (hready : ∀ j ∈ js2, workerReady j.worker = true)
    (hrtne : realtime_jobs js2 ≠ [])
    (hgcos : get_current_output_size js2 ≤ total)
    (hfuel : total.toNat ≤ fuel) (htotal : 0 ≤ total) :
    ∃ js3 cc t,
      phase3 total fuel js2 = some js3 ∧
      js3.length = js2.length ∧
      get_current_output_size js3 = total ∧
      (∀ i, i < js2.length →
        (js3.getD i dummyJob).worker = (js2.getD i dummyJob).worker ∧
        (js3.getD i dummyJob).complementary = (js2.getD i dummyJob).complementary) ∧
      0 ≤ cc ∧
      (∀ p, p < (realtime_jobs js3).length →
        ((realtime_jobs js3).getD p dummyJob).batch_size =
          cc + (if p < t then 1 else 0)) ∧
      (∀ j ∈ js3, isRT j = false → j.batch_size = 0) ∧
      (∀ j ∈ js3, workerReady j.worker = true) ∧
      realtime_jobs js3 ≠ [] := by
  have hnn : 0 ≤ get_current_output_size js2 := by
    refine gcos_nonneg js2 ?_
    intro j hj
    by_cases hrt : isRT j = true
    · have : j ∈ realtime_jobs js2 := List.mem_filter.mpr ⟨hj, hrt⟩
      rw [hcrt j this]
      exact hc
    · rw [hzero j hj (by revert hrt; cases isRT j <;> simp)]
  by_cases hrem : 1 ≤ total - get_current_output_size js2
  · have hkeys : ∀ k ∈ rtIndices js2, (js2.getD k dummyJob).batch_size = c := by
      intro k hk
      have hkRT := rtIndicesFrom_mem_isRT js2 0 k hk
      simp only [Nat.sub_zero] at hkRT
      have hklen := rtIndices_lt_length js2 k hk
      exact hcrt _ (List.mem_filter.mpr ⟨getD_mem hklen, hkRT⟩)
    have hordne : rtIndices js2 ≠ [] := by
      intro h
      apply hrtne
      rw [← rtIndices_map_getD js2, h]
      rfl
    obtain ⟨js3, q, t, heq3, hlen3, hq, ht, hother, hpat, hsum3⟩ :=
      rrLoop_uniform (rtIndices js2) hordne (rtIndices_nodup js2) fuel js2
        (total - get_current_output_size js2) c (by omega) (by omega)
        (rtIndices_lt_length js2) hkeys
    have hp3 : phase3 total fuel js2 = some js3 := by
      rw [phase3]
      rw [if_pos hrem, sortIdx_uniform js2 c _ hkeys]
      exact heq3
    have hpt3 : ∀ i, i < js2.length →
        (js3.getD i dummyJob).worker = (js2.getD i dummyJob).worker ∧
        (js3.getD i dummyJob).complementary = (js2.getD i dummyJob).complementary := by
      intro i hi
      by_cases hmem : i ∈ rtIndices js2
      · rcases List.mem_iff_getElem.mp hmem with ⟨p, hp, hpe⟩
        have hgd : (rtIndices js2).getD p 0 = i := by
          rw [List.getD_eq_getElem _ 0 hp]
          exact hpe
        obtain ⟨hw, hcp, _⟩ := hpat p hp
        rw [hgd] at hw hcp
        exact ⟨hw, hcp⟩
      · rw [hother i hmem]
        exact ⟨rfl, rfl⟩
    have hidx3 : rtIndices js3 = rtIndices js2 := by
      refine rtIndicesFrom_congr js3 js2 0 (by rw [hlen3]) ?_
      intro i hi
      rw [hlen3] at hi
      obtain ⟨hw, hcp⟩ := hpt3 i hi
      exact isRT_congr hw hcp
    have hrtmap : realtime_jobs js3 = (rtIndices js2).map fun k => js3.getD k dummyJob := by
      rw [← rtIndices_map_getD js3, hidx3]
    have hrtlen : (realtime_jobs js3).length = (rtIndices js2).length := by
      rw [hrtmap, List.length_map]
    have hrtpos : ∀ p, p < (realtime_jobs js3).length →
        (realtime_jobs js3).getD p dummyJob =
          js3.getD ((rtIndices js2).getD p 0) dummyJob := by
      intro p hp
      have hp2 : p < ((rtIndices js2).map fun k => js3.getD k dummyJob).length := by
        rw [← hrtmap]
        exact hp
      have hp3 : p < (rtIndices js2).length := by
        rw [hrtlen] at hp
        exact hp
      rw [hrtmap, List.getD_eq_getElem _ _ hp2, List.getElem_map,
        List.getD_eq_getElem _ 0 hp3]
    refine ⟨js3, c + q, t, hp3, hlen3, by omega, hpt3, by omega, ?_, ?_, ?_, ?_⟩
    · intro p hp
      obtain ⟨_, _, hb⟩ := hpat p (by rw [← hrtlen]; exact hp)
      rw [hrtpos p hp, hb]
    · intro j hj hnrt
      rcases mem_exists_getD hj with ⟨i, hi, hget⟩
      have hi2 : i < js2.length := by rw [← hlen3]; exact hi
      have hnrt2 : isRT (js2.getD i dummyJob) = false := by
        obtain ⟨hw, hcp⟩ := hpt3 i hi2
        rw [← isRT_congr hw hcp, hget]
        exact hnrt
      have hnotmem : i ∉ rtIndices js2 := by
        intro hmem
        have := rtIndicesFrom_mem_isRT js2 0 i hmem
        simp only [Nat.sub_zero] at this
        rw [this] at hnrt2
        cases hnrt2
      rw [← hget, hother i hnotmem]
      exact hzero _ (getD_mem hi2) hnrt2
    · intro j hj
      rcases mem_exists_getD hj with ⟨i, hi, hget⟩
      have hi2 : i < js2.length := by rw [← hlen3]; exact hi
      obtain ⟨hw, _⟩ := hpt3 i hi2
      rw [← hget, hw]
      exact hready _ (getD_mem hi2)
    · rw [hrtmap]
      intro h
      rw [List.map_eq_nil] at h
      exact hordne h
  · have hg : get_current_output_size js2 = total := by omega
    refine ⟨js2, c, 0, ?_, rfl, hg, fun i _ => ⟨rfl, rfl⟩, hc, ?_, hzero, hready, hrtne⟩
    · rw [phase3]
      rw [if_neg hrem]
    · intro p hp
      have : (realtime_jobs js2).getD p dummyJob ∈ realtime_jobs js2 := getD_mem hp
      rw [hcrt _ this]
      simp

theorem distribution_pipeline (total : Int) (timeout : Rat) (pB : Int)
    (A B : List Job) (M : Job) (fuel : Nat)
    (hready : ∀ j ∈ A ++ M :: B, workerReady j.worker = true)
    (hcompl : ∀ j ∈ A ++ M :: B, j.complementary = false)
    (hltA : ∀ j ∈ A, jobIpm j < jobIpm M)
    (hleB : ∀ j ∈ B, jobIpm j ≤ jobIpm M)
    (htotal : 0 ≤ total)
    (hpB0 : 0 ≤ pB)
    (hpBn : ((A ++ M :: B).length : Int) * pB ≤ total)
    (hfuel : total.toNat ≤ fuel) :
    job_stall (A ++ M :: B) M.worker pB = some 0 ∧
    ∃ js1 d js2 per js3 out,
      phase1Go total timeout pB [] (A ++ M :: B) 0 0 = some (js1, d) ∧
      phase2 d js1 = some (js2, per) ∧
      phase3 total fuel js2 = some js3 ∧
      optimize_jobs total timeout pB fuel (A ++ M :: B) = some out ∧
      get_current_output_size (realtime_jobs out) = total ∧
      ((∀ j ∈ A ++ B, j.worker.uuid ≠ M.worker.uuid) →
        ∀ j ∈ out, j.worker.uuid = M.worker.uuid → j.complementary = false) ∧
      (∀ j1 ∈ realtime_jobs js3, ∀ j2 ∈ realtime_jobs js3,
        j1.batch_size ≤ j2.batch_size + 1) ∧
      (∀ p p2 : Nat, p ≤ p2 → p2 < (realtime_jobs js3).length →
        ((realtime_jobs js3).getD p2 dummyJob).batch_size ≤
          ((realtime_jobs js3).getD p dummyJob).batch_size) := by
  have hMready : workerReady M.worker = true := hready M (by simp)
  have hMcompl : M.complementary = false := hcompl M (by simp)
  have hMRT : isRT M = true := workerReady_isRT hMready hMcompl
  have hstall : job_stall (A ++ M :: B) M.worker pB = some 0 := by
    have hfilter : realtime_jobs (A ++ M :: B) =
        realtime_jobs A ++ M :: realtime_jobs B := by
      rw [realtime_jobs, List.filter_append, List.filter_cons, if_pos hMRT]
      rfl
    have hpick : pickFastest (realtime_jobs A ++ M :: realtime_jobs B) = some M := by
      refine pickFastest_first_max _ _ M ?_ ?_
      · intro x hx
        exact hltA x (List.mem_filter.mp hx).1
      · intro x hx
        exact hleB x (List.mem_filter.mp hx).1
    rw [job_stall, fastest_realtime_job, hfilter, hpick]
    dsimp only
    rw [if_pos rfl]
  refine ⟨hstall, ?_⟩
  have hAready : ∀ j ∈ A, workerReady j.worker = true ∧ j.complementary = false :=
    fun j hj => ⟨hready j (by simp [hj]), hcompl j (by simp [hj])⟩
  have hBready : ∀ j ∈ B, workerReady j.worker = true ∧ j.complementary = false :=
    fun j hj => ⟨hready j (by simp [hj]), hcompl j (by simp [hj])⟩
  obtain ⟨A2, B2, d, hp1, hlenA2⟩ :=
    phase1Go_fastest total timeout pB M A B [] 0 0 (by simp) hAready hBready
      hMready hMcompl (by simp) hltA hleB le_rfl hpB0 (by simp) rfl
  obtain ⟨rem2, d2, hp1b, hrel1, hd2nn, hbound1⟩ :=
    phase1Go_spec total timeout pB hpB0 (A ++ M :: B) [] 0 0 (by simp)
      (fun j hj => ⟨hready j hj, hcompl j hj⟩) le_rfl (by simp) rfl
  have hcombine := hp1.symm.trans hp1b
  rw [List.nil_append, List.nil_append] at hcombine
  have hpair : (A2 ++ { M with batch_size := pB } :: B2, d) = (rem2, d2) := by
    injection hcombine
  have hjs1eq : A2 ++ { M with batch_size := pB } :: B2 = rem2 :=
    congrArg Prod.fst hpair
  have hdeq : d = d2 := congrArg Prod.snd hpair
  set js1 := A2 ++ { M with batch_size := pB } :: B2 with hjs1
  rw [← hjs1eq] at hrel1 hbound1
  rw [← hdeq] at hd2nn hbound1
  rw [List.nil_append] at hp1 hbound1
  have hlen1 : (A ++ M :: B).length = js1.length := hrel1.length_eq
  have hready1 : ∀ j ∈ js1, workerReady j.worker = true := by
    intro j hj
    rcases forall₂_mem_right hrel1 j hj with ⟨o, ho, hsh⟩
    rw [phase1Shape_worker hsh]
    exact hready o ho
  have hfields1 : ∀ j ∈ js1, (j.complementary = false ∧ j.batch_size = pB) ∨
      (j.complementary = true ∧ j.batch_size = 0) := by
    intro j hj
    rcases forall₂_mem_right hrel1 j hj with ⟨o, ho, hsh⟩
    exact phase1Shape_fields hsh (hcompl o ho)
  have hMmem1 : ({ M with batch_size := pB } : Job) ∈ js1 := by
    rw [hjs1]; simp
  have hM'RT : isRT { M with batch_size := pB } = true := by
    rw [isRT_set_batch]
    exact hMRT
  have hrtne1 : realtime_jobs js1 ≠ [] :=
    List.ne_nil_of_mem (List.mem_filter.mpr ⟨hMmem1, hM'RT⟩)
  have hbound1e : d + get_current_output_size js1 ≤ total := by
    simp only [List.length_nil, Nat.cast_zero, zero_add] at hbound1
    have hflip : pB * ((A ++ M :: B).length : Int) =
        ((A ++ M :: B).length : Int) * pB := mul_comm _ _
    linarith [hbound1, hpBn]
  obtain ⟨js2, per, c, hp2, hc0, hcrt2, hgcos2, hlen2, hptw12, hready2, hzero2, hrtne2⟩ :=
    phase2_spec d js1 total pB hd2nn hbound1e hready1 hfields1 hrtne1 hpB0
  obtain ⟨js3, cc, t, hp3, hlen3, hgcos3, hptw23, hcc, hrt3pos, hzero3, hready3, hrtne3⟩ :=
    phase3_spec total fuel js2 c hc0 hcrt2 hzero2 hready2 hrtne2 hgcos2 hfuel htotal
  have hsome3 : ∀ j ∈ ([] : List Job) ++ js3, j.worker.avg_ipm.isSome = true := by
    simpa using fun j hj => workerReady_isSome (hready3 j hj)
  have hrtne3b : realtime_jobs (([] : List Job) ++ js3) ≠ [] := by
    simpa using hrtne3
  obtain ⟨js4, hp4, hrel4⟩ := phase4Go_spec pB per js3 [] hsome3 hrtne3b
  rw [List.nil_append] at hp4
  have hlen4 : js3.length = js4.length := hrel4.length_eq
  have hptw34 : ∀ i, i < js3.length →
      (js4.getD i dummyJob).worker = (js3.getD i dummyJob).worker ∧
      (js4.getD i dummyJob).complementary = (js3.getD i dummyJob).complementary := by
    intro i hi
    rcases forall₂_getD hrel4 i hi with ⟨hcf, hn⟩ | ⟨hct, hw, hcn⟩
    · rw [hn]
      exact ⟨rfl, rfl⟩
    · exact ⟨hw, by rw [hcn, hct]⟩
  have hrt43 : realtime_jobs js4 = realtime_jobs js3 := realtime_forall2 hrel4
  have hsplit3 : get_current_output_size (realtime_jobs js3) = total := by
    rw [gcos_split_rt js3 hzero3, hgcos3]
  have hge3 : ∀ j ∈ realtime_jobs js3, 0 ≤ j.batch_size := by
    intro j hj
    rcases mem_exists_getD hj with ⟨p, hp, hget⟩
    rw [← hget, hrt3pos p hp]
    by_cases hpt : p < t <;> simp [hpt] <;> omega
  have hge4 : ∀ j ∈ js4, isRT j = true → 0 ≤ j.batch_size := by
    intro j hj hrt
    refine hge3 j ?_
    rw [← hrt43]
    exact List.mem_filter.mpr ⟨hj, hrt⟩
  have hn1 : 1 ≤ js4.length := by
    rw [← hlen4, hlen3, hlen2, ← hlen1]
    simp only [List.length_append, List.length_cons]
    omega
  obtain ⟨j0, tail, hj4⟩ : ∃ j0 tail, js4 = j0 :: tail := by
    cases js4 with
    | nil => simp at hn1
    | cons a b => exact ⟨a, b, rfl⟩
  have hprune : pruneJobs js4 =
      j0 :: tail.filter (fun x => decide (1 ≤ x.batch_size)) := by
    rw [hj4, pruneJobs]
    simp only [List.length_cons, Nat.add_sub_cancel]
    exact pruneLoop_cons j0 tail
  have hopt : optimize_jobs total timeout pB fuel (A ++ M :: B) =
      some (pruneJobs js4) := by
    rw [optimize_jobs, hp1]
    dsimp only
    rw [hp2]
    dsimp only
    rw [hp3]
    dsimp only
    rw [hp4]
  have hsumout : get_current_output_size (realtime_jobs (pruneJobs js4)) = total := by
    have htail : ∀ j ∈ tail, isRT j = true → 0 ≤ j.batch_size := by
      intro j hj hrt
      exact hge4 j (by rw [hj4]; exact List.mem_cons_of_mem j0 hj) hrt
    have hkeep := gcos_rt_filter_keep tail htail
    have hrt4 : get_current_output_size (realtime_jobs js4) = total := by
      rw [hrt43, hsplit3]
    rw [hj4] at hrt4
    rw [hprune]
    rw [realtime_jobs, List.filter_cons] at hrt4 ⊢
    by_cases hj0 : isRT j0 = true
    · rw [if_pos hj0] at hrt4 ⊢
      rw [gcos_cons] at hrt4 ⊢
      rw [realtime_jobs, realtime_jobs] at hkeep
      rw [hkeep]
      exact hrt4
    · rw [if_neg hj0] at hrt4 ⊢
      rw [realtime_jobs, realtime_jobs] at hkeep
      rw [hkeep]
      exact hrt4
  have hbalance : ∀ j1 ∈ realtime_jobs js3, ∀ j2 ∈ realtime_jobs js3,
      j1.batch_size ≤ j2.batch_size + 1 := by
    intro j1 hj1 j2 hj2
    rcases mem_exists_getD hj1 with ⟨p1, hp1', hg1⟩
    rcases mem_exists_getD hj2 with ⟨p2, hp2', hg2⟩
    rw [← hg1, ← hg2, hrt3pos p1 hp1', hrt3pos p2 hp2']
    by_cases h1 : p1 < t <;> by_cases h2 : p2 < t <;> simp [h1, h2] <;> omega
  have hantitone : ∀ p p2 : Nat, p ≤ p2 → p2 < (realtime_jobs js3).length →
      ((realtime_jobs js3).getD p2 dummyJob).batch_size ≤
        ((realtime_jobs js3).getD p dummyJob).batch_size := by
    intro p p2 hle hp2'
    have hp' : p < (realtime_jobs js3).length := Nat.lt_of_le_of_lt hle hp2'
    rw [hrt3pos p hp', hrt3pos p2 hp2']
    by_cases h1 : p < t <;> by_cases h2 : p2 < t <;> simp [h1, h2] <;> omega
  refine ⟨js1, d, js2, per, js3, pruneJobs js4, hp1, hp2, hp3, hopt, hsumout, ?_,
    hbalance, hantitone⟩
  intro hdist j hjout huuid
  have hjin4 : j ∈ js4 := by
    rw [hprune] at hjout
    rw [hj4]
    rcases List.mem_cons.mp hjout with h | h
    · rw [h]
      exact List.mem_cons_self j0 tail
    · exact List.mem_cons_of_mem j0 (List.mem_filter.mp h).1
  rcases mem_exists_getD hjin4 with ⟨i, hi4, hget4⟩
  have hi3 : i < js3.length := by rw [hlen4]; exact hi4
  have hi2 : i < js2.length := by rw [← hlen3]; exact hi3
  have hi1 : i < js1.length := by rw [← hlen2]; exact hi2
  have hin : i < (A ++ M :: B).length := by rw [hlen1]; exact hi1
  have hw41 : (js4.getD i dummyJob).worker = (js1.getD i dummyJob).worker := by
    rw [(hptw34 i hi3).1, (hptw23 i hi2).1, (hptw12 i hi1).1]
  have hc41 : (js4.getD i dummyJob).complementary =
      (js1.getD i dummyJob).complementary := by
    rw [(hptw34 i hi3).2, (hptw23 i hi2).2, (hptw12 i hi1).2]
  have hw1orig : (js1.getD i dummyJob).worker =
      ((A ++ M :: B).getD i dummyJob).worker :=
    phase1Shape_worker (forall₂_getD hrel1 i hin)
  by_cases hiM : i = A.length
  · have hgetM : js1.getD i dummyJob = { M with batch_size := pB } := by
      rw [hjs1, hiM, List.getD_append_right A2 _ dummyJob A.length (le_of_eq hlenA2)]
      rw [hlenA2]
      simp
    rw [← hget4, hc41, hgetM]
    exact hMcompl
  · exfalso
    have horigmem : ((A ++ M :: B).getD i dummyJob) ∈ A ∨
        ((A ++ M :: B).getD i dummyJob) ∈ B := by
      by_cases hlt : i < A.length
      · left
        rw [List.getD_append A (M :: B) dummyJob i hlt]
        exact getD_mem hlt
      · right
        have hge : A.length ≤ i := Nat.le_of_not_lt hlt
        have hgt : A.length < i := Nat.lt_of_le_of_ne hge (fun h => hiM h.symm)
        rw [List.getD_append_right A (M :: B) dummyJob i hge]
        have hk : i - A.length = (i - A.length - 1) + 1 := by omega
        rw [hk, List.getD_cons_succ]
        refine getD_mem ?_
        have : (A ++ M :: B).length = A.length + (B.length + 1) := by simp
        omega
    have hne : ((A ++ M :: B).getD i dummyJob).worker.uuid ≠ M.worker.uuid := by
      rcases horigmem with h | h
      · exact hdist _ (List.mem_append.mpr (Or.inl h))
      · exact hdist _ (List.mem_append.mpr (Or.inr h))
    apply hne
    rw [← hw1orig, ← hw41, hget4]
    exact huuid

theorem exists_first_max : ∀ (l : List Job), l ≠ [] →
    ∃ A M B, l = A ++ M :: B ∧ (∀ x ∈ A, jobIpm x < jobIpm M) ∧
      (∀ x ∈ l, jobIpm x ≤ jobIpm M) := by
  intro l
  induction l with
  | nil => intro h; exact absurd rfl h
  | cons x xs ih =>
    intro _
    cases xs with
    | nil => exact ⟨[], x, [], rfl, by simp, by simp⟩
    | cons y ys =>
      obtain ⟨A, M, B, heq, hA, hall⟩ := ih (by simp)
      by_cases hle : jobIpm M ≤ jobIpm x
      · refine ⟨[], x, y :: ys, rfl, by simp, ?_⟩
        intro z hz
        rcases List.mem_cons.mp hz with h | h
        · rw [h]
        · exact le_trans (hall z h) hle
      · push_neg at hle
        refine ⟨x :: A, M, B, by rw [List.cons_append, ← heq], ?_, ?_⟩
        · intro z hz
          rcases List.mem_cons.mp hz with h | h
          · rw [h]; exact hle
          · exact hA z h
        · intro z hz
          rcases List.mem_cons.mp hz with h | h
          · rw [h]; exact le_of_lt hle
          · exact hall z h

theorem fdiv_batch_nonneg {total : Int} {n : Nat} (htotal : 0 ≤ total) :
    0 ≤ Int.fdiv total (n : Int) :=
  Int.fdiv_nonneg htotal (by positivity)

theorem fdiv_batch_mul_le {total : Int} {n : Nat} (htotal : 0 ≤ total) (hn : n ≠ 0) :
    (n : Int) * Int.fdiv total (n : Int) ≤ total := by
  rw [Int.fdiv_eq_ediv total (by positivity), mul_comm]
  exact Int.ediv_mul_le total (by exact_mod_cast hn)

unseal Rat.mul Rat.inv Rat.add Rat.sub in
/-- C1 (amended): for every nonempty set of scheduled workers with positive known
ipm, fresh non-complementary jobs, and total `T ≥ 0`, the full distribution
algorithm (with the baseline batch `T // n` the caller passes per the function's
contract) succeeds, and the surviving realtime (non-complementary) Jobs' image
counts sum to exactly `T`.  (The claim as stated is false: a surviving
complementary Job's backfill is added on top of `T` — see the counterexample —
so exact conservation holds for the realtime tier, while backfill can push the
overall total above `T`.) -/
theorem C1_amended_realtime_conservation (total : Int) (timeout : Rat) (fuel : Nat)
    (jobs : List Job) (hne : jobs ≠ [])
    (hready : ∀ j ∈ jobs, workerReady j.worker = true)
    (hcompl : ∀ j ∈ jobs, j.complementary = false)
    (htotal : 0 ≤ total)
    (hfuel : total.toNat ≤ fuel) :
    ∃ out, optimize_jobs total timeout (Int.fdiv total (jobs.length : Int)) fuel jobs =
        some out ∧
      get_current_output_size (realtime_jobs out) = total := by
  obtain ⟨A, M, B, heq, hltA, hall⟩ := exists_first_max jobs hne
  subst heq
  obtain ⟨_, js1, d, js2, per, js3, out, _, _, _, hopt, hsum, _, _, _⟩ :=
    distribution_pipeline total timeout
      (Int.fdiv total ((A ++ M :: B).length : Int)) A B M fuel hready hcompl hltA
      (fun j hj => hall j (by simp [hj])) htotal
      (fdiv_batch_nonneg htotal)
      (fdiv_batch_mul_le htotal (by simp))
      hfuel
  exact ⟨out, hopt, hsum⟩

/-- Witness for C1 (amended): the worked-scenario fleet (master 60 ipm, A 60 ipm,
B 6 ipm) with `T = 9`: the algorithm succeeds and the surviving realtime jobs sum
to 9. -/
theorem C1_witness :
    ∃ out, optimize_jobs 9 6 (Int.fdiv 9 ((exJobs.length : Nat) : Int)) 9 exJobs =
        some out ∧
      get_current_output_size (realtime_jobs out) = 9 :=
  C1_amended_realtime_conservation 9 6 9 exJobs (by decide) (by decide) (by decide)
    (by decide) (by decide)

unseal Rat.mul Rat.inv Rat.add Rat.sub in
/-- C4: for every distribution of positive ipm values over the scheduled workers
(with their fleet-unique uuids), the worker with the maximal ipm among
realtime-eligible workers — the first such worker in registration order, here the
head of the `M :: B` segment with the strictly slower prefix `A` — has computed
lag `job_stall = 0` and is never classified complementary: every job of that
worker in `optimize_jobs`' output has `complementary = false`. -/
theorem C4_fastest_never_complementary (total : Int) (timeout : Rat) (fuel : Nat)
    (A B : List Job) (M : Job)
    (hready : ∀ j ∈ A ++ M :: B, workerReady j.worker = true)
    (hcompl : ∀ j ∈ A ++ M :: B, j.complementary = false)
    (hltA : ∀ j ∈ A, jobIpm j < jobIpm M)
    (hleB : ∀ j ∈ B, jobIpm j ≤ jobIpm M)
    (hdist : ∀ j ∈ A ++ B, j.worker.uuid ≠ M.worker.uuid)
    (htotal : 0 ≤ total) (hfuel : total.toNat ≤ fuel) :
    job_stall (A ++ M :: B) M.worker
        (Int.fdiv total ((A ++ M :: B).length : Int)) = some 0 ∧
    ∃ out, optimize_jobs total timeout
        (Int.fdiv total ((A ++ M :: B).length : Int)) fuel (A ++ M :: B) =
          some out ∧
      ∀ j ∈ out, j.worker.uuid = M.worker.uuid → j.complementary = false := by
  obtain ⟨hstall, js1, d, js2, per, js3, out, _, _, _, hopt, _, huuid, _, _⟩ :=
    distribution_pipeline total timeout
      (Int.fdiv total ((A ++ M :: B).length : Int)) A B M fuel hready hcompl hltA hleB
      htotal (fdiv_batch_nonneg htotal) (fdiv_batch_mul_le htotal (by simp)) hfuel
  exact ⟨hstall, out, hopt, huuid hdist⟩

/-- Witness for C4: the worked-scenario fleet; the master (60 ipm, fastest) gets
lag 0 and is realtime in the output. -/
theorem C4_witness :
    job_stall ([] ++ ({ worker := exMaster, batch_size := 3 } : Job) ::
        [{ worker := exA, batch_size := 3 }, { worker := exB, batch_size := 3 }])
        ({ worker := exMaster, batch_size := 3 } : Job).worker
        (Int.fdiv 9 ((([] ++ ({ worker := exMaster, batch_size := 3 } : Job) ::
          [{ worker := exA, batch_size := 3 },
            { worker := exB, batch_size := 3 }]).length : Nat) : Int)) = some 0 ∧
    ∃ out, optimize_jobs 9 6
        (Int.fdiv 9 ((([] ++ ({ worker := exMaster, batch_size := 3 } : Job) ::
          [{ worker := exA, batch_size := 3 },
            { worker := exB, batch_size := 3 }]).length : Nat) : Int)) 9
        ([] ++ ({ worker := exMaster, batch_size := 3 } : Job) ::
          [{ worker := exA, batch_size := 3 },
            { worker := exB, batch_size := 3 }]) = some out ∧
      ∀ j ∈ out, j.worker.uuid =
          ({ worker := exMaster, batch_size := 3 } : Job).worker.uuid →
        j.complementary = false :=
  C4_fastest_never_complementary 9 6 9 []
    [{ worker := exA, batch_size := 3 }, { worker := exB, batch_size := 3 }]
    { worker := exMaster, batch_size := 3 } (by decide) (by decide) (by decide)
    (by decide) (by decide) (by decide) (by decide)

unseal Rat.mul Rat.inv Rat.add Rat.sub in
/-- C5: in the setting of the distribution algorithm (fresh jobs over workers with
positive known ipm, baseline `T // n`), after the remainder-rounding step
(phase 3) any two realtime Jobs' image counts differ by at most 1, and on ties
the extra image goes to the Job earlier in node registration order: along the
realtime list (which keeps registration order, master first) the counts are
non-increasing, i.e. every Job carrying the extra image precedes every Job
without it. -/
theorem C5_remainder_balanced (total : Int) (timeout : Rat) (fuel : Nat)
    (jobs : List Job) (hne : jobs ≠ [])
    (hready : ∀ j ∈ jobs, workerReady j.worker = true)
    (hcompl : ∀ j ∈ jobs, j.complementary = false)
    (htotal : 0 ≤ total)
    (hfuel : total.toNat ≤ fuel) :
    ∃ js1 d js2 per js3,
      phase1Go total timeout (Int.fdiv total (jobs.length : Int)) [] jobs 0 0 =
        some (js1, d) ∧
      phase2 d js1 = some (js2, per) ∧
      phase3 total fuel js2 = some js3 ∧
      (∀ j1 ∈ realtime_jobs js3, ∀ j2 ∈ realtime_jobs js3,
        j1.batch_size ≤ j2.batch_size + 1) ∧
      (∀ p p2 : Nat, p ≤ p2 → p2 < (realtime_jobs js3).length →
        ((realtime_jobs js3).getD p2 dummyJob).batch_size ≤
          ((realtime_jobs js3).getD p dummyJob).batch_size) := by
  obtain ⟨A, M, B, heq, hltA, hall⟩ := exists_first_max jobs hne
  subst heq
  obtain ⟨_, js1, d, js2, per, js3, out, hp1, hp2, hp3, _, _, _, hbal, hmono⟩ :=
    distribution_pipeline total timeout
      (Int.fdiv total ((A ++ M :: B).length : Int)) A B M fuel hready hcompl hltA
      (fun j hj => hall j (by simp [hj])) htotal
      (fdiv_batch_nonneg htotal)
      (fdiv_batch_mul_le htotal (by simp))
      hfuel
  exact ⟨js1, d, js2, per, js3, hp1, hp2, hp3, hbal, hmono⟩

/-- Witness for C5: the worked-scenario fleet with `T = 9`; after remainder
rounding the realtime counts are master 5, A 4 — within 1 of each other, extra
image on the earlier job. -/
theorem C5_witness :
    ∃ js1 d js2 per js3,
      phase1Go 9 6 (Int.fdiv 9 ((exJobs.length : Nat) : Int)) [] exJobs 0 0 =
        some (js1, d) ∧
      phase2 d js1 = some (js2, per) ∧
      phase3 9 9 js2 = some js3 ∧
      (∀ j1 ∈ realtime_jobs js3, ∀ j2 ∈ realtime_jobs js3,
        j1.batch_size ≤ j2.batch_size + 1) ∧
      (∀ p p2 : Nat, p ≤ p2 → p2 < (realtime_jobs js3).length →
        ((realtime_jobs js3).getD p2 dummyJob).batch_size ≤
          ((realtime_jobs js3).getD p dummyJob).batch_size) :=
  C5_remainder_balanced 9 6 9 exJobs (by decide) (by decide) (by decide) (by decide)
    (by decide)

/-! ### Determinism: the distribution algorithm reads only the stripped view -/

theorem strip_ipm (j : Job) : jobIpm (Job.strip j) = jobIpm j := rfl

theorem strip_isRT (j : Job) : isRT (Job.strip j) = isRT j := rfl

theorem strip_batch (j : Job) : (Job.strip j).batch_size = j.batch_size := rfl

theorem strip_compl (j : Job) : (Job.strip j).complementary = j.complementary := rfl

theorem strip_uuid (j : Job) : (Job.strip j).worker.uuid = j.worker.uuid := rfl

theorem strip_eta (j : Job) (n : Int) :
    (Job.strip j).worker.batch_eta n = j.worker.batch_eta n := rfl

theorem realtime_strip (js : List Job) :
    realtime_jobs (js.map Job.strip) = (realtime_jobs js).map Job.strip := by
  rw [realtime_jobs, realtime_jobs, List.filter_map]
  exact congrArg (List.map Job.strip) (List.filter_congr fun j _ => rfl)

theorem pickFBest_strip (a x : Job) :
    pickFBest (Job.strip a) (Job.strip x) = Job.strip (pickFBest a x) := by
  by_cases h : jobIpm a < jobIpm x <;> simp [pickFBest, strip_ipm, h]

theorem pickSBest_strip (a x : Job) :
    pickSBest (Job.strip a) (Job.strip x) = Job.strip (pickSBest a x) := by
  by_cases h : jobIpm x < jobIpm a <;> simp [pickSBest, strip_ipm, h]

theorem foldl_pickF_strip (l : List Job) : ∀ a : Job,
    (l.map Job.strip).foldl pickFBest (Job.strip a) = Job.strip (l.foldl pickFBest a) := by
  induction l with
  | nil => intro a; rfl
  | cons x rest ih =>
    intro a
    simp only [List.map_cons, List.foldl_cons, pickFBest_strip]
    exact ih _

theorem foldl_pickS_strip (l : List Job) : ∀ a : Job,
    (l.map Job.strip).foldl pickSBest (Job.strip a) = Job.strip (l.foldl pickSBest a) := by
  induction l with
  | nil => intro a; rfl
  | cons x rest ih =>
    intro a
    simp only [List.map_cons, List.foldl_cons, pickSBest_strip]
    exact ih _

theorem pickFastest_strip (l : List Job) :
    pickFastest (l.map Job.strip) = (pickFastest l).map Job.strip := by
  cases l with
  | nil => rfl
  | cons j rest =>
    simp only [List.map_cons, pickFastest, Option.map_some']
    rw [foldl_pickF_strip]

theorem pickSlowest_strip (l : List Job) :
    pickSlowest (l.map Job.strip) = (pickSlowest l).map Job.strip := by
  cases l with
  | nil => rfl
  | cons j rest =>
    simp only [List.map_cons, pickSlowest, Option.map_some']
    rw [foldl_pickS_strip]

theorem fastest_realtime_strip (js : List Job) :
    fastest_realtime_job (js.map Job.strip) = (fastest_realtime_job js).map Job.strip := by
  rw [fastest_realtime_job, fastest_realtime_job, realtime_strip, pickFastest_strip]

theorem slowest_realtime_strip (js : List Job) :
    slowest_realtime_job (js.map Job.strip) = (slowest_realtime_job js).map Job.strip := by
  rw [slowest_realtime_job, slowest_realtime_job, realtime_strip, pickSlowest_strip]

theorem job_stall_strip (js : List Job) (j : Job) (pB : Int) :
    job_stall (js.map Job.strip) (Job.strip j).worker pB = job_stall js j.worker pB := by
  rw [job_stall, job_stall, fastest_realtime_strip]
  cases hf : fastest_realtime_job js with
  | none => rfl
  | some fj => rfl

theorem phase1Go_strip (total : Int) (timeout : Rat) (pB : Int) (rem : List Job) :
    ∀ done deferred checked,
      phase1Go total timeout pB (done.map Job.strip) (rem.map Job.strip) deferred checked =
        Option.map (fun p : List Job × Int => (p.1.map Job.strip, p.2))
          (phase1Go total timeout pB done rem deferred checked) := by
  induction rem with
  | nil => intro done deferred checked; rfl
  | cons job rest ih =>
    intro done deferred checked
    simp only [List.map_cons]
    rw [phase1Go, phase1Go]
    have hl : done.map Job.strip ++ Job.strip job :: rest.map Job.strip =
        (done ++ job :: rest).map Job.strip := by
      rw [List.map_append, List.map_cons]
    rw [hl, job_stall_strip]
    cases job_stall (done ++ job :: rest) job.worker pB with
    | none => rfl
    | some lag =>
      by_cases hc : lag < timeout ∨ lag = 0
      · simp only [if_pos hc]
        have h2 : done.map Job.strip ++ [{ Job.strip job with batch_size := pB }] =
            (done ++ [{ job with batch_size := pB }]).map Job.strip := by
          rw [List.map_append]; rfl
        rw [h2]
        exact ih _ _ _
      · simp only [if_neg hc]
        have h2 : done.map Job.strip ++
            [{ Job.strip job with complementary := true, batch_size := 0 }] =
            (done ++ [{ job with complementary := true, batch_size := 0 }]).map Job.strip := by
          rw [List.map_append]; rfl
        rw [h2]
        exact ih _ _ _

theorem gcos_strip (js : List Job) :
    get_current_output_size (js.map Job.strip) = get_current_output_size js := by
  induction js with
  | nil => rfl
  | cons j rest ih =>
    simp only [get_current_output_size, List.map_cons, List.sum_cons] at ih ⊢
    rw [ih, strip_batch]

theorem phase2_map_strip (per : Int) (js : List Job) :
    ((js.map Job.strip).map fun j =>
        if isRT j then { j with batch_size := j.batch_size + per } else j) =
      (js.map fun j =>
        if isRT j then { j with batch_size := j.batch_size + per } else j).map Job.strip := by
  rw [List.map_map, List.map_map]
  refine List.map_congr_left fun j hj => ?_
  simp only [Function.comp_apply, strip_isRT]
  by_cases hr : isRT j = true
  · rw [if_pos hr, if_pos hr]; rfl
  · rw [if_neg hr, if_neg hr]

theorem phase2_strip (d : Int) (js : List Job) :
    phase2 d (js.map Job.strip) =
      Option.map (fun p : List Job × Option Int => (p.1.map Job.strip, p.2)) (phase2 d js) := by
  simp only [phase2, realtime_strip, List.length_map]
  by_cases hd : 0 < d
  · simp only [if_pos hd]
    by_cases hl : (realtime_jobs js).length = 0
    · simp [hl]
    · simp only [if_neg hl, Option.map_some', phase2_map_strip]
  · simp [if_neg hd]

theorem rtIndicesFrom_strip (js : List Job) : ∀ s : Nat,
    rtIndicesFrom s (js.map Job.strip) = rtIndicesFrom s js := by
  induction js with
  | nil => intro s; rfl
  | cons j rest ih =>
    intro s
    simp only [List.map_cons, rtIndicesFrom, strip_isRT, ih]

theorem rtIndices_strip (js : List Job) :
    rtIndices (js.map Job.strip) = rtIndices js := by
  rw [rtIndices, rtIndices, rtIndicesFrom_strip]

theorem getD_strip (js : List Job) (i : Nat) :
    (js.map Job.strip).getD i dummyJob = Job.strip (js.getD i dummyJob) :=
  List.getD_map js dummyJob Job.strip

theorem insertByBatch_strip (js : List Job) (i : Nat) (l : List Nat) :
    insertByBatch (js.map Job.strip) i l = insertByBatch js i l := by
  induction l with
  | nil => rfl
  | cons k rest ih =>
    simp only [insertByBatch, getD_strip, strip_batch, ih]

theorem sortIdx_strip (js : List Job) (l : List Nat) :
    sortIdx (js.map Job.strip) l = sortIdx js l := by
  induction l with
  | nil => rfl
  | cons i rest ih =>
    simp only [sortIdx, insertByBatch_strip, ih]

theorem bumpAt_strip (js : List Job) (i : Nat) :
    bumpAt (js.map Job.strip) i = (bumpAt js i).map Job.strip := by
  rw [bumpAt, bumpAt, List.map_set, getD_strip]
  rfl

theorem rrPass_strip (order : List Nat) : ∀ (js : List Job) (rem : Int),
    rrPass order (js.map Job.strip) rem =
      ((rrPass order js rem).1.map Job.strip, (rrPass order js rem).2) := by
  induction order with
  | nil => intro js rem; rfl
  | cons i o ih =>
    intro js rem
    rw [rrPass, rrPass]
    by_cases h : rem < 1
    · simp [h]
    · simp only [if_neg h]
      rw [bumpAt_strip]
      exact ih _ _

theorem rrLoop_strip (fuel : Nat) : ∀ (order : List Nat) (js : List Job) (rem : Int),
    rrLoop fuel order (js.map Job.strip) rem =
      Option.map (List.map Job.strip) (rrLoop fuel order js rem) := by
  induction fuel with
  | zero =>
    intro order js rem
    rw [rrLoop, rrLoop]
    by_cases h : rem < 1
    · simp [h]
    · simp [h]
  | succ n ih =>
    intro order js rem
    rw [rrLoop, rrLoop]
    by_cases h : rem < 1
    · simp [h]
    · simp only [if_neg h]
      rw [rrPass_strip]
      exact ih _ _ _

theorem phase3_strip (total : Int) (fuel : Nat) (js : List Job) :
    phase3 total fuel (js.map Job.strip) =
      Option.map (List.map Job.strip) (phase3 total fuel js) := by
  simp only [phase3, gcos_strip, rtIndices_strip, sortIdx_strip]
  by_cases h : 1 ≤ total - get_current_output_size js
  · simp only [if_pos h]
    exact rrLoop_strip fuel _ js _
  · simp [if_neg h]

theorem phase4Go_strip (pB : Int) (per : Option Int) (rem : List Job) : ∀ done : List Job,
    phase4Go pB per (done.map Job.strip) (rem.map Job.strip) =
      Option.map (List.map Job.strip) (phase4Go pB per done rem) := by
  induction rem with
  | nil => intro done; rfl
  | cons job rest ih =>
    intro done
    simp only [List.map_cons]
    rw [phase4Go, phase4Go]
    simp only [strip_compl]
    by_cases hc : job.complementary = false
    · simp only [if_pos hc]
      have h2 : done.map Job.strip ++ [Job.strip job] = (done ++ [job]).map Job.strip := by
        rw [List.map_append]; rfl
      rw [h2]
      exact ih _
    · simp only [if_neg hc]
      have hl : done.map Job.strip ++ Job.strip job :: rest.map Job.strip =
          (done ++ job :: rest).map Job.strip := by
        rw [List.map_append, List.map_cons]
      rw [hl, slowest_realtime_strip]
      cases hs : slowest_realtime_job (done ++ job :: rest) with
      | none => rfl
      | some sj =>
        simp only [Option.map_some', strip_eta]
        cases he : sj.worker.batch_eta pB with
        | none => rfl
        | some slack0 =>
          cases hj : job.worker.batch_eta 1 with
          | none => rfl
          | some secs =>
            have h3 : ∀ v : Int,
                done.map Job.strip ++
                    [{ worker := (Job.strip job).worker, batch_size := v, complementary := job.complementary }] =
                  (done ++ [{ job with batch_size := v }]).map Job.strip := by
              intro v; rw [List.map_append]; rfl
            simp only []
            rw [h3]
            exact ih _

theorem map_eraseIdx (l : List Job) : ∀ i : Nat,
    (l.map Job.strip).eraseIdx i = (l.eraseIdx i).map Job.strip := by
  induction l with
  | nil => intro i; rfl
  | cons a rest ih =>
    intro i
    cases i with
    | zero => rfl
    | succ n =>
      simp only [List.map_cons, List.eraseIdx_cons_succ, ih]

theorem pruneLoop_strip (last : Nat) : ∀ js : List Job,
    pruneLoop (js.map Job.strip) last = (pruneLoop js last).map Job.strip := by
  induction last with
  | zero => intro js; rfl
  | succ n ih =>
    intro js
    rw [pruneLoop, pruneLoop, getD_strip]
    simp only [strip_batch]
    by_cases h : (js.getD (n + 1) dummyJob).batch_size < 1
    · simp only [if_pos h, map_eraseIdx]
      exact ih _
    · simp only [if_neg h]
      exact ih _

theorem pruneJobs_strip (js : List Job) :
    pruneJobs (js.map Job.strip) = (pruneJobs js).map Job.strip := by
  rw [pruneJobs, pruneJobs, List.length_map, pruneLoop_strip]

theorem optimize_jobs_strip (total : Int) (timeout : Rat) (pB : Int) (fuel : Nat)
    (js : List Job) :
    optimize_jobs total timeout pB fuel (js.map Job.strip) =
      Option.map (List.map Job.strip) (optimize_jobs total timeout pB fuel js) := by
  rw [optimize_jobs, optimize_jobs]
  have h1 := phase1Go_strip total timeout pB js [] 0 0
  simp only [List.map_nil] at h1
  rw [h1]
  cases hp1 : phase1Go total timeout pB [] js 0 0 with
  | none => rfl
  | some p1 =>
    obtain ⟨js1, deferred⟩ := p1
    simp only [Option.map_some']
    rw [phase2_strip]
    cases hp2 : phase2 deferred js1 with
    | none => rfl
    | some p2 =>
      obtain ⟨js2, per⟩ := p2
      simp only [Option.map_some']
      rw [phase3_strip]
      cases hp3 : phase3 total fuel js2 with
      | none => rfl
      | some js3 =>
        simp only [Option.map_some']
        have h4 := phase4Go_strip pB per js3 []
        simp only [List.map_nil] at h4
        rw [h4]
        cases hp4 : phase4Go pB per [] js3 with
        | none => rfl
        | some js4 =>
          simp only [Option.map_some']
          rw [pruneJobs_strip]

/-- C9: determinism of the distribution algorithm.  `Job.strip` keeps exactly the
observables the claim compares — worker identity, throughput figures, image count
and complementary flag — and resets the fields `optimize_jobs` never reads.  Two
runs whose inputs agree on those observables (equal after `Job.strip`; in
particular two runs from identical inputs) produce outputs that agree on all of
them: the same workers with the same image counts and the same complementary
flags in the same order (and both fail in the same way if either does). -/
theorem C9_determinism (total : Int) (timeout : Rat) (pB : Int) (fuel : Nat)
    (js1 js2 : List Job) (h : js1.map Job.strip = js2.map Job.strip) :
    Option.map (List.map Job.strip) (optimize_jobs total timeout pB fuel js1) =
      Option.map (List.map Job.strip) (optimize_jobs total timeout pB fuel js2) := by
  rw [← optimize_jobs_strip, ← optimize_jobs_strip, h]

/-- Witness for C9: the worked-scenario fleet and the same fleet behind different
network addresses, ports, credentials, TLS flags and liveness bookkeeping agree
after `Job.strip`, and the two runs of the distribution algorithm agree on every
observable of the output. -/
theorem C9_witness :
    exJobsAlt.map Job.strip = exJobs.map Job.strip ∧
      Option.map (List.map Job.strip) (optimize_jobs 9 6 3 9 exJobsAlt) =
        Option.map (List.map Job.strip) (optimize_jobs 9 6 3 9 exJobs) :=
  ⟨by decide, C9_determinism 9 6 3 9 exJobsAlt exJobs (by decide)⟩
